import Mathlib

/-!
Shallow embedding of the uplift meta-learner search engine of
`lightautoml/addons/uplift/base.py` (class `AutoUpliftTX` and the wrapper
classes `Wrapper` / `BaseLearnerWrapper` / `MetaLearnerWrapper`), together
with proofs about the claims of the specification.

Conventions of the embedding:
* Python dicts (which preserve insertion order) are modelled as association
  lists `List (key × value)` with unique-key update/append operations.
* Machine floats of the external model predictions and metric values are
  modelled as rationals `ℚ`; the external AutoML `fit`/`predict` capability,
  the uplift metric and the wall-clock timer are oracles passed as function
  parameters (they are out-of-scope collaborators per the spec).
* The unseeded global numpy random source used by the scheduler
  (`np.random.randint(0, n, 1)[0]`) is modelled as an injected stream
  `rng : Nat → Nat`; the t-th draw over a pool of size `n` is `rng t % n`.
* Exceptions (fatal errors) are modelled by `Option`/`none` results.
-/

namespace Uplift

/-- A stage full identity: the ordered chain of stage names
(`MLStageFullName = Tuple[str, ...]` in the source). -/
abbrev MLStageFullName := List String

/-- One (stage-chain, candidate) training submission yielded by
`_generate_stage_baselearner_candidates`.  A level-1 submission is the
1-tuple `((stage_l1, bl_l1),)`; a level-2 submission is the 2-tuple
`((stage_l1, bl_l1), (stage_l2, bl_l2))`.  Stages are carried by their full
names and candidate wrappers by their display names; `zip_longest` padding
makes a level-1 candidate (and hence the prerequisite candidate of a
level-2 pool entry) possibly `None`, hence the `Option`. -/
inductive Submission where
  | l1 (stage : MLStageFullName) (cand : Option String)
  | l2 (prevStage : MLStageFullName) (prevCand : Option String)
       (stage : MLStageFullName) (cand : String)
deriving DecidableEq, Repr

/-- An element of `pool_iter_levels[2]`: the tuple
`(stage_name_l2, bl_l1, bls_iter)` where the lazy iterator is modelled by
the list of candidates it has not produced yet. -/
structure PoolEntry where
  l2name : MLStageFullName
  bl1 : Option String
  rem : List String
deriving DecidableEq, Repr

/-- Association-list lookup for the stage-candidates dict. -/
def lookupCfg (cfg : List (MLStageFullName × List String)) (k : MLStageFullName) :
    List String :=
  match cfg with
  | [] => []
  | p :: ps => if p.1 = k then p.2 else lookupCfg ps k

/-- One iteration of the body of the random draining loops: draw a random
index, advance the chosen entry's candidate iterator (emitting a level-2
submission), or pop the entry if its iterator is exhausted
(`StopIteration`). -/
def drainStep (rng : Nat → Nat) (t : Nat) (pool : List PoolEntry) :
    Option Submission × List PoolEntry :=
  let idx := rng t % pool.length
  match pool.get? idx with
  | none => (none, pool)
  | some e =>
    match e.rem with
    | [] => (none, pool.eraseIdx idx)
    | c :: rest =>
        (some (Submission.l2 (e.l2name.take 1) e.bl1 e.l2name c),
         pool.set idx ⟨e.l2name, e.bl1, rest⟩)

/-- The bounded draining loop `for _ in range(min(n_stage_iters, 3))`
executed after a level-1 submission once every level-1 stage has had a full
round. -/
def drainK (rng : Nat → Nat) : Nat → Nat → List PoolEntry →
    List Submission × List PoolEntry × Nat
  | 0, t, pool => ([], pool, t)
  | j + 1, t, pool =>
      let s := drainStep rng t pool
      let r := drainK rng j (t + 1) s.2
      (s.1.toList ++ r.1, r.2.1, r.2.2)

/-- Size measure of the pending level-2 pool: every draining iteration
(advance or pop) strictly decreases it, so it bounds the number of
iterations of the final `while` loop. -/
def poolMeasure (pool : List PoolEntry) : Nat :=
  pool.length + (pool.map (fun e => e.rem.length)).sum

/-- Fuel-indexed final draining loop
(`while len(pool_iter_levels[2]) > 0: ...`). -/
def drainAllF (rng : Nat → Nat) : Nat → Nat → List PoolEntry → List Submission
  | 0, _, _ => []
  | fuel + 1, t, pool =>
    match pool with
    | [] => []
    | _ :: _ =>
      let idx := rng t % pool.length
      match pool.get? idx with
      | none => []
      | some e =>
        match e.rem with
        | [] => drainAllF rng fuel (t + 1) (pool.eraseIdx idx)
        | c :: rest =>
            Submission.l2 (e.l2name.take 1) e.bl1 e.l2name c ::
              drainAllF rng fuel (t + 1) (pool.set idx ⟨e.l2name, e.bl1, rest⟩)

/-- The final draining loop; `poolMeasure pool + 1` fuel always suffices
because every iteration strictly decreases `poolMeasure`. -/
def drainAll (rng : Nat → Nat) (t : Nat) (pool : List PoolEntry) : List Submission :=
  drainAllF rng (poolMeasure pool + 1) t pool

/-- Simple concatenation-map used to flatten the zip-rounds. -/
def flatMapL (f : α → List β) : List α → List β
  | [] => []
  | a :: l => f a ++ flatMapL f l

/-- Longest candidate-list length among the level-1 stages: the number of
tuples produced by `zip_longest`. -/
def maxLenOf (level1 : List (MLStageFullName × List String)) : Nat :=
  (level1.map (fun p => p.2.length)).foldr max 0

/-- The flattened sequence of `(stage_name_l1, bl_l1)` items visited by the
two nested `for` loops over `zip_longest(...)`: round `r` visits every
level-1 stage paired with the `r`-th element of its (deep-copied) candidate
list, `None`-padded by `zip_longest` when the list is exhausted. -/
def itemsOf (cfg : List (MLStageFullName × List String)) :
    List (MLStageFullName × Option String) :=
  let level1 := cfg.filter (fun p => p.1.length == 1)
  flatMapL (fun r => level1.map (fun p => (p.1, p.2.get? r)))
    (List.range (maxLenOf level1))

/-- The pool entries registered for a just-visited level-1 item
`(s, ob)`: one entry per level-2 stage whose full-name one-element
`take 1` equals `s`, with a fresh iterator over that stage's candidate
list. -/
def newEntriesFor (cfg : List (MLStageFullName × List String))
    (level2 : List MLStageFullName) (s : MLStageFullName) (ob : Option String) :
    List PoolEntry :=
  (level2.filter (fun l2 => l2.take 1 == s)).map
    (fun l2 => ⟨l2, ob, lookupCfg cfg l2⟩)

/-- Processing of the level-1 items: for each item, register the unlocked
level-2 pool entries, yield the level-1 submission, and — once every
level-1 stage has had a full round (`not first_run`, i.e. from item index
`k` onwards where `k` is the number of level-1 stages) — run up to
`min(len(pool), 3)` random level-2 iterations. -/
def procItems (cfg : List (MLStageFullName × List String))
    (level2 : List MLStageFullName) (k : Nat) (rng : Nat → Nat) :
    List (MLStageFullName × Option String) → Nat → Nat → List PoolEntry →
    List Submission × List PoolEntry × Nat
  | [], _, t, pool => ([], pool, t)
  | (s, ob) :: rest, i, t, pool =>
      let pool1 := pool ++ newEntriesFor cfg level2 s ob
      let dr :=
        if k ≤ i ∧ pool1.length ≠ 0 then
          drainK rng (min pool1.length 3) t pool1
        else ([], pool1, t)
      let more := procItems cfg level2 k rng rest (i + 1) dr.2.2 dr.2.1
      (Submission.l1 s ob :: (dr.1 ++ more.1), more.2.1, more.2.2)

/-- The full submission sequence produced by
`_generate_stage_baselearner_candidates`, given the per-stage candidate
dict `cfg` (`_set_stage_baselearners()` output, in dict insertion order)
and the injected global random stream `rng`. -/
def genRun (cfg : List (MLStageFullName × List String)) (rng : Nat → Nat) :
    List Submission :=
  let level1 := cfg.filter (fun p => p.1.length == 1)
  let level2 := (cfg.filter (fun p => p.1.length == 2)).map Prod.fst
  let r := procItems cfg level2 level1.length rng (itemsOf cfg) 0 0 []
  r.1 ++ drainAll rng r.2.2 r.2.1

/-- Embedding of the dataclass `MetaLearnerStage` (the `params` dict only
carries task objects, which play no role in the claims under study). -/
inductive MetaLearnerStage where
  | mk (name : String) (prev_stage : Option MetaLearnerStage)

/-- The stage's bare name. -/
def MetaLearnerStage.name : MetaLearnerStage → String
  | .mk n _ => n

/-- `MetaLearnerStage.full_name`: the ordered chain
`(*prev_stage.full_name(), name)`. -/
def MetaLearnerStage.full_name : MetaLearnerStage → MLStageFullName
  | .mk n none => [n]
  | .mk n (some p) => p.full_name ++ [n]

/-- The class constant `__MAP_META_TO_STAGES__` of `AutoUpliftTX`. -/
def MAP_META_TO_STAGES : List (String × List MetaLearnerStage) :=
  [("TLearner",
    [.mk "outcome_control" none,
     .mk "outcome_treatment" none]),
   ("XLearner",
    [.mk "outcome_control" none,
     .mk "outcome_treatment" none,
     .mk "propensity" none,
     .mk "effect_control" (some (.mk "outcome_treatment" none)),
     .mk "effect_treatment" (some (.mk "outcome_control" none))])]

/-- Embedding of the dataclass `TrainedStageBaseLearner`.  The candidate
wrappers are carried by their display names (`.name` is the only field the
engine reads from them after training); the opaque trained AutoML instance
is an identifier interpreted by the external predict oracle; `pred` is the
held-out prediction array (`bl.predict(test).data.ravel()`). -/
structure TrainedStageBaseLearner where
  stage_bl : String
  prev_stage_bl : Option String
  trained_model : Nat
  pred : List ℚ
deriving DecidableEq, Repr

/-- The cache `_trained_stage_baselearners : defaultdict(list)`, keyed by
stage full identity, in key insertion order. -/
abbrev Cache := List (MLStageFullName × List TrainedStageBaseLearner)

/-- Cache lookup (dict `in` / `[]` access on the existing keys). -/
def cacheLookup : Cache → MLStageFullName → Option (List TrainedStageBaseLearner)
  | [], _ => none
  | p :: ps, k => if p.1 = k then some p.2 else cacheLookup ps k

/-- `self._trained_stage_baselearners[full_name].append(tsbl)` with
`defaultdict(list)` semantics: append to the existing entry, or create the
key (at the end, preserving insertion order) with a one-element list. -/
def cacheAppend : Cache → MLStageFullName → TrainedStageBaseLearner → Cache
  | [], k, r => [(k, [r])]
  | p :: ps, k, r =>
      if p.1 = k then (p.1, p.2 ++ [r]) :: ps else p :: cacheAppend ps k r

/-- One `_evaluate(stage_info, ...)` call reduced to its cache effect.
`modelOf k` / `predOf k` are the opaque trained model instance and held-out
prediction produced by the external AutoML capability at the `k`-th
training event.  `none` models the fatal errors: calling a `None`
baselearner wrapper (`bl_wrap()` with `zip_longest` padding), and a level-2
submission whose prerequisite record is absent from the cache
(`IndexError` on `[...][0]` inside `_prepare_data_for_stage`). -/
def evalSubmission (modelOf : Nat → Nat) (predOf : Nat → List ℚ) (k : Nat)
    (cache : Cache) : Submission → Option Cache
  | .l1 stg ocand =>
      match ocand with
      | some c => some (cacheAppend cache stg ⟨c, none, modelOf k, predOf k⟩)
      | none => none
  | .l2 ps opc stg c =>
      match opc with
      | some pc =>
          match ((cacheLookup cache ps).getD []).filter
              (fun r => r.stage_bl == pc) with
          | [] => none
          | _ :: _ => some (cacheAppend cache stg ⟨c, some pc, modelOf k, predOf k⟩)
      | none => none

/-- The training loop of `AutoUpliftTX.fit`: evaluate each submission in
order and, after each training event, stop if the timer reports the global
budget as exceeded (`timer k = true` means `self._timer.time_limit_exceeded()`
returns true after the `k`-th event, 0-based).  Returns the final cache
(`none` on a fatal training error) and the number of evaluated
submissions. -/
def runFitAux (modelOf : Nat → Nat) (predOf : Nat → List ℚ) (timer : Nat → Bool) :
    Nat → Cache → List Submission → Option Cache × Nat
  | k, cache, [] => (some cache, k)
  | k, cache, s :: rest =>
      match evalSubmission modelOf predOf k cache s with
      | none => (none, k + 1)
      | some c' =>
          if timer k then (some c', k + 1)
          else runFitAux modelOf predOf timer (k + 1) c' rest

/-- The training loop started from an empty cache. -/
def runFit (modelOf : Nat → Nat) (predOf : Nat → List ℚ) (timer : Nat → Bool)
    (subs : List Submission) : Option Cache × Nat :=
  runFitAux modelOf predOf timer 0 [] subs

/-- Cartesian product in `itertools.product` order (last factor varies
fastest). -/
def listProd : List (List α) → List (List α)
  | [] => [[]]
  | xs :: rest => flatMapL (fun x => (listProd rest).map (fun c => x :: c)) xs

/-- Association lookup on a combination dict `set_bls` (one chosen record
per cache key). -/
def comboLookup : List (MLStageFullName × TrainedStageBaseLearner) →
    MLStageFullName → Option TrainedStageBaseLearner
  | [], _ => none
  | p :: ps, k => if p.1 = k then some p.2 else comboLookup ps k

/-- The inner loop of `_bl_for_ml` building `ml_bls` for one metalearner:
a stage's record from the combination is taken as is when it has no
prerequisite candidate, and — when it does — only if the combination's
record for `full_name[0:1]` was trained with exactly that candidate display
name; otherwise the stage is skipped (`continue` / mismatch). -/
def comboAssignStage
    (setBls : List (MLStageFullName × TrainedStageBaseLearner))
    (st : MetaLearnerStage) :
    Option (MLStageFullName × TrainedStageBaseLearner) :=
  let fn := st.full_name
  match comboLookup setBls fn with
  | none => none
  | some r =>
    match r.prev_stage_bl with
    | none => some (fn, r)
    | some p =>
      match comboLookup setBls (fn.take 1) with
      | none => none
      | some rp => if rp.stage_bl = p then some (fn, r) else none

/-- The per-metalearner stage collection loop of `_bl_for_ml`. -/
def comboAssignMl (stages : List MetaLearnerStage)
    (setBls : List (MLStageFullName × TrainedStageBaseLearner)) :
    List (MLStageFullName × TrainedStageBaseLearner) :=
  stages.filterMap (comboAssignStage setBls)

/-- One iteration of `_bl_for_ml`'s outer combination loop: the dict
`set_ml_with_sbls` mapping each metalearner name to its complete stage
assignment, a metalearner being kept only when every one of its stages
collected a (consistent) record. -/
def comboAssign (setBls : List (MLStageFullName × TrainedStageBaseLearner)) :
    List (String × List (MLStageFullName × TrainedStageBaseLearner)) :=
  MAP_META_TO_STAGES.filterMap (fun ms =>
    let mlBls := comboAssignMl ms.2 setBls
    if mlBls.length = ms.2.length then some (ms.1, mlBls) else none)

/-- `_bl_for_ml`: fail fatally when no metalearner has every required
stage in the cache, else yield `comboAssign` for every member of the full
cross-product of cached records (one record per cached stage full
identity). -/
def bl_for_ml (cache : Cache) :
    Option (List (List (String × List (MLStageFullName × TrainedStageBaseLearner)))) :=
  let ready := MAP_META_TO_STAGES.any (fun ms =>
    ms.2.all (fun st => (cacheLookup cache st.full_name).isSome))
  if ready then
    some ((listProd (cache.map Prod.snd)).map (fun combo =>
      comboAssign ((cache.map Prod.fst).zip combo)))
  else none

/-- Three-list pointwise zip used for the propensity-weighted formula. -/
def zipWith3 (f : α → β → γ → δ) : List α → List β → List γ → List δ
  | a :: as, b :: bs, c :: cs => f a b c :: zipWith3 f as bs cs
  | _, _, _ => []

/-- `_metalearner_predict`: the held-out uplift prediction of an assembled
metalearner from its stage records' cached predictions; unknown metalearner
names raise (`none`), as do missing stage keys (`KeyError`). -/
def metalearner_predict (metalearner : String)
    (baselearners : List (MLStageFullName × TrainedStageBaseLearner)) :
    Option (List ℚ) :=
  if metalearner = "TLearner" then
    match comboLookup baselearners ["outcome_control"],
          comboLookup baselearners ["outcome_treatment"] with
    | some c, some t =>
        some (List.zipWith (fun tp cp => tp - cp) t.pred c.pred)
    | _, _ => none
  else if metalearner = "XLearner" then
    match comboLookup baselearners ["outcome_treatment", "effect_control"],
          comboLookup baselearners ["outcome_control", "effect_treatment"],
          comboLookup baselearners ["propensity"] with
    | some c, some t, some p =>
        some (zipWith3 (fun pp tp cp => pp * tp + (1 - pp) * cp)
          p.pred t.pred c.pred)
    | _, _, _ => none
  else none

/-- Key of the strategy score table
(`TrainedMetaLearnerFullName = Tuple[str, Tuple[Tuple[MLStageFullName, str], ...]]`). -/
abbrev TrainedMetaLearnerFullName := String × List (MLStageFullName × String)

/-- Total comparison of stage full names (lexicographic over `Ord String`),
used to model Python's `sorted` on the `(full_name, display_name)` pairs:
any fixed total order yields the same canonical score-table key up to
renaming. -/
def fullNameCompare : MLStageFullName → MLStageFullName → Ordering
  | [], [] => .eq
  | [], _ :: _ => .lt
  | _ :: _, [] => .gt
  | a :: as, b :: bs =>
      match compare a b with
      | .eq => fullNameCompare as bs
      | o => o

/-- `≤` on the sortable `(stage full name, candidate name)` pairs. -/
def sblKeyLe (a b : MLStageFullName × String) : Bool :=
  match fullNameCompare a.1 b.1 with
  | .lt => true
  | .gt => false
  | .eq => !(compare a.2 b.2 == .gt)

/-- Ordered insertion for the canonical sort of score-table keys. -/
def insertSbl (a : MLStageFullName × String) :
    List (MLStageFullName × String) → List (MLStageFullName × String)
  | [] => [a]
  | b :: l => if sblKeyLe a b then a :: b :: l else b :: insertSbl a l

/-- `tuple(sorted([...]))` on the `(stage full name, candidate name)`
pairs of one assembled metalearner. -/
def sortSbls : List (MLStageFullName × String) → List (MLStageFullName × String)
  | [] => []
  | a :: l => insertSbl a (sortSbls l)

/-- Ordered-dict assignment `d[k] = v`: overwrite the value in place when
the key exists, else append the new key. -/
def dictInsert (tbl : List (TrainedMetaLearnerFullName × ℚ))
    (k : TrainedMetaLearnerFullName) (v : ℚ) :
    List (TrainedMetaLearnerFullName × ℚ) :=
  if tbl.any (fun kv => kv.1 == k) then
    tbl.map (fun kv => if kv.1 == k then (kv.1, v) else kv)
  else tbl ++ [(k, v)]

/-- The body of `_calculate_ml_metric`'s inner loop for one assembled
metalearner: compute its held-out uplift prediction, score it with the
external metric oracle (`calculate_uplift_auc` applied to the fixed
held-out target/treatment), and record it under the canonical
`(metalearner name, sorted stage/candidate pairs)` key (a fatal
prediction error aborts). -/
def scoreStep (metric : List ℚ → ℚ)
    (tbl : List (TrainedMetaLearnerFullName × ℚ))
    (mlsb : String × List (MLStageFullName × TrainedStageBaseLearner)) :
    Option (List (TrainedMetaLearnerFullName × ℚ)) :=
  match metalearner_predict mlsb.1 mlsb.2 with
  | none => none
  | some uplift_pred =>
      some (dictInsert tbl
        (mlsb.1, sortSbls (mlsb.2.map (fun p => (p.1, p.2.stage_bl))))
        (metric uplift_pred))

/-- `_calculate_ml_metric`: walk every combination's metalearner
assignments, scoring each with `scoreStep`; fails (`none`) when
`_bl_for_ml` raises. -/
def calculate_ml_metric (metric : List ℚ → ℚ) (cache : Cache) :
    Option (List (TrainedMetaLearnerFullName × ℚ)) :=
  match bl_for_ml cache with
  | none => none
  | some sets =>
      sets.foldlM (fun tbl st => st.foldlM (scoreStep metric) tbl) []

/-- `new value is strictly better than the current best` under the
configured comparison direction (the replacement test of
`_set_best_metalearner`). -/
def betterScore (increasing_metric : Bool) (new cur : ℚ) : Bool :=
  (increasing_metric && decide (cur < new)) ||
  (!increasing_metric && decide (cur > new))

/-- `_set_best_metalearner`: scan the score table in insertion order; the
first entry seeds the best, and a later entry replaces it only when its
score is strictly better under the configured direction.  `none` models
the fatal unpacking of `best_candidate = None` on an empty table. -/
def set_best_metalearner (increasing_metric : Bool)
    (metrics : List (TrainedMetaLearnerFullName × ℚ)) :
    Option (TrainedMetaLearnerFullName × ℚ) :=
  metrics.foldl (fun best kv =>
    match best with
    | none => some kv
    | some bkv =>
        if betterScore increasing_metric kv.2 bkv.2 then some kv else some bkv)
    none

/-- The submission-scheduling-through-selection part of `AutoUpliftTX.fit`
(the train/test split and the model fits are external oracles): generate
the submissions, run the budget-limited training loop, score every
assemblable metalearner and select the best score-table key.  The
`random_state` parameter is carried to make the reproducibility claim
statable: as in the source, the scheduler draws from the global stream
`rng`, not from `random_state` (which only seeds the external
`train_test_split`). -/
def fitSelect (random_state : Nat) (cfg : List (MLStageFullName × List String))
    (rng : Nat → Nat) (timer : Nat → Bool) (modelOf : Nat → Nat)
    (predOf : Nat → List ℚ) (metric : List ℚ → ℚ) (increasing_metric : Bool) :
    Option TrainedMetaLearnerFullName :=
  let _ := random_state
  match (runFit modelOf predOf timer (genRun cfg rng)).1 with
  | none => none
  | some cache =>
      match calculate_ml_metric metric cache with
      | none => none
      | some tbl => (set_best_metalearner increasing_metric tbl).map Prod.fst

/-- A pandas DataFrame row, modelled as an association list from column
name to (rational-valued) cell. -/
abbrev Row := List (String × ℚ)

/-- A DataFrame: the ordered list of its rows. -/
abbrev DF := List Row

/-- `df[df[col] == v]`: keep the rows whose `col` entry equals `v`. -/
def dfFilterEq (df : DF) (col : String) (v : ℚ) : DF :=
  df.filter (fun r => r.lookup col == some v)

/-- `df.drop(col, axis=1)`: remove the column from every row. -/
def dfDropCol (df : DF) (col : String) : DF :=
  df.map (fun r => r.filter (fun kv => kv.1 ≠ col))

/-- `df[col]` as a flat array. -/
def dfGetCol (df : DF) (col : String) : List ℚ :=
  df.map (fun r => (r.lookup col).getD 0)

/-- `df[col] = vals`: elementwise column assignment of an equal-length
array. -/
def dfSetCol (df : DF) (col : String) (vals : List ℚ) : DF :=
  df.zipWith (fun r v => r.map (fun kv => if kv.1 = col then (kv.1, v) else kv))
    vals

/-- The roles mapping (`role key → column name`). -/
abbrev Roles := List (String × String)

/-- `roles.pop(key)` on a copied dict: remove the entry of the key. -/
def rolesPop (roles : Roles) (k : String) : Roles :=
  roles.filter (fun kv => kv.1 ≠ k)

/-- `roles[key] = value` with dict semantics: overwrite in place or append
a new entry. -/
def rolesSet (roles : Roles) (k v : String) : Roles :=
  if roles.any (fun kv => kv.1 == k) then
    roles.map (fun kv => if kv.1 = k then (k, v) else kv)
  else roles ++ [(k, v)]

/-- `_prepare_data_for_stage`: the stage-specific training slice.
Parameters `treatment_role, treatment_col` and `target_role, target_col`
are the pairs returned by the external helpers
`uplift_utils._get_treatment_role(roles)` / `_get_target_role(roles)`;
`predict m` is the external `trained_model.predict(·).data.ravel()` oracle
for the trained model instance `m`.  `none` models the fatal errors
(`Wrong l1 stage name`, `Wrong l2 stage name`, the `IndexError` when the
prerequisite record is missing from the cache, and the unbound-locals
error on a stage chain that is neither length 1 nor length 2). -/
def prepare_data_for_stage (predict : Nat → DF → List ℚ) (cache : Cache)
    (stage_info : List (MetaLearnerStage × String)) (train : DF) (roles : Roles)
    (treatment_role treatment_col target_role target_col : String) :
    Option (DF × Roles) :=
  match stage_info with
  | [(st, _)] =>
      if st.name = "propensity" then
        some (dfDropCol train target_col,
          rolesSet (rolesPop (rolesPop roles treatment_role) target_role)
            "target" treatment_col)
      else if st.name = "outcome_control" then
        some (dfDropCol (dfFilterEq train treatment_col 0) treatment_col,
          rolesPop roles treatment_role)
      else if st.name = "outcome_treatment" then
        some (dfDropCol (dfFilterEq train treatment_col 1) treatment_col,
          rolesPop roles treatment_role)
      else none
  | [(pst, pbl), (st, _)] =>
      match (((cacheLookup cache pst.full_name).getD []).filter
          (fun r => r.stage_bl == pbl)).head? with
      | none => none
      | some prev_stage_bl =>
          if st.name = "effect_control" then
            let train_data := dfDropCol (dfFilterEq train treatment_col 0) treatment_col
            let opposite_gr_pred := predict prev_stage_bl.trained_model train_data
            some (dfSetCol train_data target_col
                (List.zipWith (fun p y => p - y) opposite_gr_pred
                  (dfGetCol train_data target_col)),
              rolesPop roles treatment_role)
          else if st.name = "effect_treatment" then
            let train_data := dfDropCol (dfFilterEq train treatment_col 1) treatment_col
            let opposite_gr_pred := predict prev_stage_bl.trained_model train_data
            some (dfSetCol train_data target_col
                (List.zipWith (fun y p => y - p) (dfGetCol train_data target_col)
                  opposite_gr_pred),
              rolesPop roles treatment_role)
          else none
  | _ => none

/-- Parameter values of a `BaseLearnerWrapper`'s `params` dict; the actual
values (task objects, timeouts, ...) are opaque to the override operation,
so they are modelled as integers. -/
abbrev BLParams := List (String × Int)

/-- `dict.update(d)`: overwrite the values of existing keys in place and
append the new keys of `d` in order (`Wrapper.update_params`). -/
def dictUpdate (ps d : BLParams) : BLParams :=
  ps.map (fun kv =>
    match d.lookup kv.1 with
    | some v => (kv.1, v)
    | none => kv) ++
  d.filter (fun kv => !(ps.any (fun kv' => kv'.1 == kv.1)))

/-- Embedding of `BaseLearnerWrapper` (the `klass` construction recipe is
opaque and irrelevant to the parameter-override claims). -/
structure BaseLearnerWrapper where
  name : String
  params : BLParams
deriving DecidableEq, Repr

/-- A value of a `MetaLearnerWrapper.params` dict: a nested
`BaseLearnerWrapper`, a list whose members may be `BaseLearnerWrapper`s
(`isinstance` checked one by one), or any other opaque value. -/
inductive MLParamVal where
  | blw (b : BaseLearnerWrapper)
  | vlist (xs : List (BaseLearnerWrapper ⊕ Int))
  | other (v : Int)
deriving DecidableEq, Repr

/-- Embedding of `MetaLearnerWrapper`. -/
structure MetaLearnerWrapper where
  name : String
  params : List (String × MLParamVal)
deriving DecidableEq, Repr

/-- `MetaLearnerWrapper.update_baselearner_params(d)`, reduced to its
effect on the receiver's `params` as observed after the call (in
`create_best_metalearner` the receiver is a fresh `deepcopy`, so no alias
of its nested wrappers survives outside it).  Faithful to the source: for
a dict-held `BaseLearnerWrapper` value `v` the code stores the deepcopy
`v_t` **taken before** `v.update_params(d)` into the new params, so the
value kept in the wrapper is unchanged; for list-held wrappers the very
objects are updated in place and kept. -/
def update_baselearner_params (w : MetaLearnerWrapper) (d : BLParams) :
    MetaLearnerWrapper :=
  { w with
    params := w.params.map (fun kv =>
      match kv.2 with
      | .blw v => (kv.1, MLParamVal.blw v)
      | .vlist xs =>
          (kv.1, MLParamVal.vlist (xs.map (fun x =>
            match x with
            | .inl b => .inl { b with params := dictUpdate b.params d }
            | .inr v => .inr v)))
      | .other v => (kv.1, MLParamVal.other v)) }

/-- `create_best_metalearner(update_metalearner_params=d)` reduced to the
parameter specification it returns: a deep copy of the stored best
metalearner wrapper, with `update_baselearner_params` applied when the
override dict is nonempty; the stored original is never touched (the copy
is taken first). -/
def create_best_metalearner (best : MetaLearnerWrapper) (d : BLParams) :
    MetaLearnerWrapper :=
  if d.isEmpty then best else update_baselearner_params best d

/-- The identity of a training submission inside a single run: the trained
stage full name, the candidate display name and the prerequisite candidate
display name (the cache record created by `_evaluate` carries exactly
these). -/
def Submission.ident : Submission → MLStageFullName × String × Option String
  | .l1 s c => (s, c.getD "", none)
  | .l2 _ pc s c => (s, c, pc)

/-- A submission that `_evaluate` can process without a fatal error from a
`None` wrapper: its own candidate, and for level-2 its prerequisite
candidate, are present. -/
def Submission.proper : Submission → Bool
  | .l1 _ c => c.isSome
  | .l2 _ pc _ _ => pc.isSome

/-- Project a level-1 submission back to the visited item. -/
def Submission.toL1 : Submission → Option (MLStageFullName × Option String)
  | .l1 s c => some (s, c)
  | _ => none

/-- Distinct submission identities. -/
def identNe (x y : Submission) : Prop := x.ident ≠ y.ident

/-- The `(stage, prerequisite candidate)` key identifying a level-2 pool
entry. -/
def entryKey (e : PoolEntry) : MLStageFullName × Option String :=
  (e.l2name, e.bl1)

/-- Invariant of the scheduler: `done` is the list of level-1 items
already visited, `out` the submissions emitted so far, `pool` the pending
level-2 pool.  It ties every emitted submission and pool entry back to a
visited item, and it is what makes the emitted proper submissions pairwise
distinct in identity. -/
structure SchedInv (done : List (MLStageFullName × Option String))
    (out : List Submission) (pool : List PoolEntry) : Prop where
  distinct : (out.filter Submission.proper).Pairwise identNe
  l1map : out.filterMap Submission.toL1 = done
  provOut : ∀ ps pc stg c, Submission.l2 ps pc stg c ∈ out →
      ∀ b, pc = some b → (stg.take 1, some b) ∈ done
  poolOk : ∀ e ∈ pool, e.rem.Nodup ∧
      ∀ b, e.bl1 = some b →
        (e.l2name.take 1, some b) ∈ done ∧
        ∀ c ∈ e.rem, ∀ s ∈ out, s.proper = true →
          s.ident ≠ (e.l2name, c, some b)
  poolKeys : (pool.map entryKey).Pairwise (fun a b => a.2.isSome = true → a ≠ b)

/-- Shape of a submission as produced by the scheduler: level-1 stages
have depth-1 full names, level-2 stages have depth-2 full names whose
chain head is the prerequisite stage. -/
def SubShaped : Submission → Prop
  | .l1 stg _ => stg.length = 1
  | .l2 ps _ stg _ => stg.length = 2 ∧ ps = stg.take 1

/-- Well-formedness of the cache as established by the training loop:
keys are unique, entries are nonempty, every record conditioned on a
prerequisite candidate has that candidate's record cached under the
prerequisite stage identity, and depth-1 records carry no prerequisite
candidate. -/
structure CacheWF (cache : Cache) : Prop where
  keysNodup : (cache.map Prod.fst).Nodup
  entriesNonempty : ∀ p ∈ cache, p.2 ≠ []
  prevClosed : ∀ p ∈ cache, ∀ r ∈ p.2, ∀ b, r.prev_stage_bl = some b →
      ∃ rp ∈ (cacheLookup cache (p.1.take 1)).getD [], rp.stage_bl = b
  depth1Prev : ∀ p ∈ cache, p.1.length = 1 → ∀ r ∈ p.2, r.prev_stage_bl = none

/-- Fallback record for total head selection (never reached on nonempty
cache entries). -/
def dfltRecord : TrainedStageBaseLearner := ⟨"", none, 0, []⟩

/-- A record choice for one cached stage used to assemble a consistent
combination: at the prerequisite stages of the two effect stages, pick the
record the cached effect record was conditioned on; anywhere else pick the
first cached record. -/
def chooseFor (cache : Cache) (p : MLStageFullName × List TrainedStageBaseLearner) :
    TrainedStageBaseLearner :=
  let effKey : Option MLStageFullName :=
    if p.1 = ["outcome_treatment"] then some ["outcome_treatment", "effect_control"]
    else if p.1 = ["outcome_control"] then some ["outcome_control", "effect_treatment"]
    else none
  match effKey with
  | none => p.2.headD dfltRecord
  | some key =>
      match ((cacheLookup cache key).getD []).headD dfltRecord |>.prev_stage_bl with
      | none => p.2.headD dfltRecord
      | some b => (p.2.filter (fun r => r.stage_bl = b)).headD (p.2.headD dfltRecord)

/-- The combination dict `set_bls` corresponding to choosing
`chooseFor cache` at every cached stage identity. -/
def setBlsOf (cache : Cache) : List (MLStageFullName × TrainedStageBaseLearner) :=
  (cache.map Prod.fst).zip (cache.map (chooseFor cache))

/-- Scanning variant of the best-entry selection: fold over the remaining
entries keeping the current best, replacing it only on a strict
improvement. -/
def pickBest (increasing_metric : Bool) :
    TrainedMetaLearnerFullName × ℚ → List (TrainedMetaLearnerFullName × ℚ) →
    TrainedMetaLearnerFullName × ℚ
  | cur, [] => cur
  | cur, kv :: l =>
      pickBest increasing_metric
        (if betterScore increasing_metric kv.2 cur.2 then kv else cur) l

/-- The candidate configuration used by the concrete counterexample runs:
every level-1 stage has the two candidates `A`, `B`; each level-2 stage
has a single candidate. -/
def cfgTwoCands : List (MLStageFullName × List String) :=
  [(["outcome_control"], ["A", "B"]),
   (["outcome_treatment"], ["A", "B"]),
   (["propensity"], ["A", "B"]),
   (["outcome_treatment", "effect_control"], ["X"]),
   (["outcome_control", "effect_treatment"], ["Y"])]

/-- A configuration in which `outcome_control` has an empty candidate list
while every other stage has one candidate. -/
def cfgEmptyStage : List (MLStageFullName × List String) :=
  [(["outcome_control"], []),
   (["outcome_treatment"], ["__Tabular__"]),
   (["propensity"], ["__Tabular__"]),
   (["outcome_treatment", "effect_control"], ["__Tabular__"]),
   (["outcome_control", "effect_treatment"], ["__Tabular__"])]

/-! ## Helper lemmas -/

theorem lookup_filter_ne (r : Row) (c : String) :
    (r.filter (fun kv => kv.1 ≠ c)).lookup c = none := by
  induction r with
  | nil => rfl
  | cons kv l ih =>
      obtain ⟨k, v⟩ := kv
      by_cases h : k = c
      · simpa [List.filter_cons, h] using ih
      · have hbe : (c == k) = false := beq_eq_false_iff_ne.2 (Ne.symm h)
        rw [List.filter_cons, if_pos (by simpa using h), List.lookup_cons, hbe]
        exact ih

theorem lookup_map_set (r : Row) (c : String) (v : ℚ) (y : ℚ)
    (h : r.lookup c = some y) :
    (r.map (fun kv => if kv.1 = c then (kv.1, v) else kv)).lookup c = some v := by
  induction r with
  | nil => simp [List.lookup] at h
  | cons kv l ih =>
      obtain ⟨k, w⟩ := kv
      by_cases hk : k = c
      · subst hk
        simp [List.lookup_cons]
      · have hbe : (c == k) = false := beq_eq_false_iff_ne.2 (Ne.symm hk)
        rw [List.lookup_cons, hbe] at h
        simp only [List.map_cons, if_neg hk]
        rw [List.lookup_cons, hbe]
        exact ih h

theorem get?_zipWith (f : α → β → γ) :
    ∀ (as : List α) (bs : List β) (i : Nat) (a : α) (b : β),
    as.get? i = some a → bs.get? i = some b →
    (List.zipWith f as bs).get? i = some (f a b) := by
  intro as
  induction as with
  | nil => intro bs i a b h; simp at h
  | cons x xs ih =>
      intro bs i a b ha hb
      cases bs with
      | nil => simp at hb
      | cons y ys =>
          cases i with
          | zero =>
              simp at ha hb
              simp [List.zipWith, ha, hb]
          | succ j =>
              simp only [List.get?] at ha hb
              simpa [List.zipWith] using ih ys j a b ha hb

theorem get?_zipWith3 (f : α → β → γ → δ) :
    ∀ (as : List α) (bs : List β) (cs : List γ) (i : Nat) (a : α) (b : β) (c : γ),
    as.get? i = some a → bs.get? i = some b → cs.get? i = some c →
    (zipWith3 f as bs cs).get? i = some (f a b c) := by
  intro as
  induction as with
  | nil => intro bs cs i a b c h; simp at h
  | cons x xs ih =>
      intro bs cs i a b c ha hb hc
      cases bs with
      | nil => simp at hb
      | cons y ys =>
          cases cs with
          | nil => simp at hc
          | cons z zs =>
              cases i with
              | zero =>
                  simp at ha hb hc
                  simp [zipWith3, ha, hb, hc]
              | succ j =>
                  simp only [List.get?] at ha hb hc
                  simpa [zipWith3] using ih ys zs j a b c ha hb hc

theorem rolesSet_lookup_map (l : Roles) (k v : String)
    (h : l.any (fun kv => kv.1 == k) = true) :
    (l.map (fun kv => if kv.1 = k then (k, v) else kv)).lookup k = some v := by
  induction l with
  | nil => simp at h
  | cons kv l ih =>
      obtain ⟨a, b⟩ := kv
      by_cases hk : a = k
      · simp only [List.map_cons, if_pos hk]
        rw [List.lookup_cons, beq_self_eq_true]
      · have hbe : (k == a) = false := beq_eq_false_iff_ne.2 (Ne.symm hk)
        simp only [List.any_cons, Bool.or_eq_true_iff] at h
        rcases h with h1 | h2
        · exact absurd (by simpa using h1) hk
        · simp only [List.map_cons, if_neg hk]
          rw [List.lookup_cons, hbe]
          exact ih h2

theorem rolesSet_lookup_append (l : Roles) (k v : String)
    (h : ¬l.any (fun kv => kv.1 == k) = true) :
    (l ++ [(k, v)]).lookup k = some v := by
  induction l with
  | nil => simp [List.lookup_cons]
  | cons kv l ih =>
      obtain ⟨a, b⟩ := kv
      simp only [List.any_cons, Bool.or_eq_true_iff, not_or] at h
      have hbe : (k == a) = false := by
        cases hb : (k == a) with
        | false => rfl
        | true => exact absurd (by simp [(beq_iff_eq.1 hb).symm]) h.1
      rw [List.cons_append, List.lookup_cons, hbe]
      exact ih (by simpa using h.2)

theorem rolesSet_lookup_self (rs : Roles) (k v : String) :
    (rolesSet rs k v).lookup k = some v := by
  unfold rolesSet
  by_cases h : rs.any (fun kv => kv.1 == k) = true
  · rw [if_pos h]
    exact rolesSet_lookup_map rs k v h
  · rw [if_neg h]
    exact rolesSet_lookup_append rs k v h

/-! ## C3: depth-1 stage data preparation -/

/-- C3.  For every depth-1 stage training submission, the prepared
training data is: for `outcome_control`, exactly the rows with treatment
== 0 with the treatment column dropped (and every other column, in
particular the target column, kept); for `outcome_treatment`, exactly the
rows with treatment == 1 likewise; for `propensity`, all rows with the
original target column dropped and the treatment column installed as the
training target role; any other depth-1 stage name raises a fatal
error. -/
theorem depth1_stage_preparation (predict : Nat → DF → List ℚ) (cache : Cache)
    (st : MetaLearnerStage) (bl : String) (train : DF) (roles : Roles)
    (treatment_role treatment_col target_role target_col : String) :
    (st.name = "outcome_control" →
      ∃ d, prepare_data_for_stage predict cache [(st, bl)] train roles
            treatment_role treatment_col target_role target_col =
          some (d, rolesPop roles treatment_role) ∧
        d = (train.filter (fun r => r.lookup treatment_col == some 0)).map
              (fun r => r.filter (fun kv => kv.1 ≠ treatment_col)) ∧
        ∀ row ∈ d, row.lookup treatment_col = none) ∧
    (st.name = "outcome_treatment" →
      ∃ d, prepare_data_for_stage predict cache [(st, bl)] train roles
            treatment_role treatment_col target_role target_col =
          some (d, rolesPop roles treatment_role) ∧
        d = (train.filter (fun r => r.lookup treatment_col == some 1)).map
              (fun r => r.filter (fun kv => kv.1 ≠ treatment_col)) ∧
        ∀ row ∈ d, row.lookup treatment_col = none) ∧
    (st.name = "propensity" →
      ∃ rs, prepare_data_for_stage predict cache [(st, bl)] train roles
            treatment_role treatment_col target_role target_col =
          some (train.map (fun r => r.filter (fun kv => kv.1 ≠ target_col)), rs) ∧
        rs.lookup "target" = some treatment_col) ∧
    (st.name ≠ "outcome_control" → st.name ≠ "outcome_treatment" →
      st.name ≠ "propensity" →
      prepare_data_for_stage predict cache [(st, bl)] train roles
        treatment_role treatment_col target_role target_col = none) := by
  refine ⟨?_, ?_, ?_, ?_⟩
  · intro h
    refine ⟨_, ?_, rfl, ?_⟩
    · by_cases hp : st.name = "propensity"
      · rw [h] at hp; exact absurd hp (by decide)
      · simp [prepare_data_for_stage, hp, h, dfFilterEq, dfDropCol]
    · intro row hrow
      rw [List.mem_map] at hrow
      obtain ⟨r, _, hr⟩ := hrow
      rw [← hr]
      exact lookup_filter_ne r treatment_col
  · intro h
    refine ⟨_, ?_, rfl, ?_⟩
    · by_cases hp : st.name = "propensity"
      · rw [h] at hp; exact absurd hp (by decide)
      · have hoc : ¬st.name = "outcome_control" := by
          rw [h]; decide
        simp [prepare_data_for_stage, hp, hoc, h, dfFilterEq, dfDropCol]
    · intro row hrow
      rw [List.mem_map] at hrow
      obtain ⟨r, _, hr⟩ := hrow
      rw [← hr]
      exact lookup_filter_ne r treatment_col
  · intro h
    refine ⟨rolesSet (rolesPop (rolesPop roles treatment_role) target_role)
        "target" treatment_col, ?_, rolesSet_lookup_self _ _ _⟩
    simp [prepare_data_for_stage, h, dfDropCol]
  · intro h1 h2 h3
    simp [prepare_data_for_stage, h1, h2, h3]

/-- Witness for `depth1_stage_preparation` at a concrete stage, dataset
and roles mapping. -/
theorem depth1_stage_preparation_witness :
    (∃ d, prepare_data_for_stage (fun _ _ => []) []
          [(MetaLearnerStage.mk "outcome_control" none, "__Tabular__")]
          [[("t", 1), ("y", 5)], [("t", 0), ("y", 7)]]
          [("treatment", "t"), ("target", "y")] "treatment" "t" "target" "y" =
        some (d, rolesPop [("treatment", "t"), ("target", "y")] "treatment") ∧
      d = ([[("t", 1), ("y", 5)], [("t", 0), ("y", 7)]].filter
              (fun r => r.lookup "t" == some 0)).map
            (fun r => r.filter (fun kv => kv.1 ≠ "t")) ∧
      ∀ row ∈ d, row.lookup "t" = none) ∧
    prepare_data_for_stage (fun _ _ => []) []
        [(MetaLearnerStage.mk "bogus" none, "__Tabular__")]
        [[("t", 1), ("y", 5)]] [("treatment", "t"), ("target", "y")]
        "treatment" "t" "target" "y" = none := by
  constructor
  · exact (depth1_stage_preparation (fun _ _ => []) []
      (MetaLearnerStage.mk "outcome_control" none) "__Tabular__"
      [[("t", 1), ("y", 5)], [("t", 0), ("y", 7)]]
      [("treatment", "t"), ("target", "y")] "treatment" "t" "target" "y").1 rfl
  · exact (depth1_stage_preparation (fun _ _ => []) []
      (MetaLearnerStage.mk "bogus" none) "__Tabular__"
      [[("t", 1), ("y", 5)]] [("treatment", "t"), ("target", "y")]
      "treatment" "t" "target" "y").2.2.2 (by decide) (by decide) (by decide)

/-! ## C2: depth-2 stage data preparation -/

/-- C2.  For every depth-2 stage training submission, the prepared
training data is: for `effect_control`, exactly the treatment == 0 rows
(treatment column dropped) with derived target equal to the prerequisite
model's prediction on those rows minus the original target; for
`effect_treatment`, exactly the treatment == 1 rows (treatment column
dropped) with derived target equal to the original target minus the
prerequisite model's prediction on those rows; any other depth-2 stage
name raises a fatal error.  The prerequisite model is the first cached
record of the prerequisite stage identity whose candidate display name
matches the submission's prerequisite wrapper. -/
theorem depth2_stage_preparation (predict : Nat → DF → List ℚ) (cache : Cache)
    (pst st : MetaLearnerStage) (pbl bl : String) (train : DF) (roles : Roles)
    (treatment_role treatment_col target_role target_col : String)
    (pr : TrainedStageBaseLearner)
    (hlook : (((cacheLookup cache pst.full_name).getD []).filter
        (fun r => r.stage_bl == pbl)).head? = some pr) :
    (st.name = "effect_control" →
      ∃ d, prepare_data_for_stage predict cache [(pst, pbl), (st, bl)] train roles
            treatment_role treatment_col target_role target_col =
          some (d, rolesPop roles treatment_role) ∧
        (∀ td, td = dfDropCol (dfFilterEq train treatment_col 0) treatment_col →
          d = dfSetCol td target_col
              (List.zipWith (fun p y => p - y)
                (predict pr.trained_model td) (dfGetCol td target_col)) ∧
          ∀ i row y p, td.get? i = some row → row.lookup target_col = some y →
            (predict pr.trained_model td).get? i = some p →
            ∃ row', d.get? i = some row' ∧ row'.lookup target_col = some (p - y))) ∧
    (st.name = "effect_treatment" →
      ∃ d, prepare_data_for_stage predict cache [(pst, pbl), (st, bl)] train roles
            treatment_role treatment_col target_role target_col =
          some (d, rolesPop roles treatment_role) ∧
        (∀ td, td = dfDropCol (dfFilterEq train treatment_col 1) treatment_col →
          d = dfSetCol td target_col
              (List.zipWith (fun y p => y - p)
                (dfGetCol td target_col) (predict pr.trained_model td)) ∧
          ∀ i row y p, td.get? i = some row → row.lookup target_col = some y →
            (predict pr.trained_model td).get? i = some p →
            ∃ row', d.get? i = some row' ∧ row'.lookup target_col = some (y - p))) ∧
    (st.name ≠ "effect_control" → st.name ≠ "effect_treatment" →
      prepare_data_for_stage predict cache [(pst, pbl), (st, bl)] train roles
        treatment_role treatment_col target_role target_col = none) := by
  refine ⟨?_, ?_, ?_⟩
  · intro h
    refine ⟨dfSetCol (dfDropCol (dfFilterEq train treatment_col 0) treatment_col)
        target_col
        (List.zipWith (fun p y => p - y)
          (predict pr.trained_model
            (dfDropCol (dfFilterEq train treatment_col 0) treatment_col))
          (dfGetCol (dfDropCol (dfFilterEq train treatment_col 0) treatment_col)
            target_col)), ?_, ?_⟩
    · simp [prepare_data_for_stage, hlook, h]
    · intro td htd
      subst htd
      refine ⟨rfl, ?_⟩
      intro i row y p hrow hy hp
      have hv : (List.zipWith (fun p y => p - y)
          (predict pr.trained_model (dfDropCol (dfFilterEq train treatment_col 0) treatment_col))
          (dfGetCol (dfDropCol (dfFilterEq train treatment_col 0) treatment_col)
            target_col)).get? i = some (p - y) := by
        refine get?_zipWith _ _ _ _ _ _ hp ?_
        unfold dfGetCol
        rw [List.get?_map, hrow]
        simp [hy]
      refine ⟨row.map (fun kv => if kv.1 = target_col then (kv.1, p - y) else kv),
        ?_, ?_⟩
      · unfold dfSetCol
        exact get?_zipWith _ _ _ _ _ _ hrow hv
      · exact lookup_map_set row target_col (p - y) y hy
  · intro h
    have hec : ¬st.name = "effect_control" := by rw [h]; decide
    refine ⟨dfSetCol (dfDropCol (dfFilterEq train treatment_col 1) treatment_col)
        target_col
        (List.zipWith (fun y p => y - p)
          (dfGetCol (dfDropCol (dfFilterEq train treatment_col 1) treatment_col)
            target_col)
          (predict pr.trained_model
            (dfDropCol (dfFilterEq train treatment_col 1) treatment_col))), ?_, ?_⟩
    · simp [prepare_data_for_stage, hlook, h, hec]
    · intro td htd
      subst htd
      refine ⟨rfl, ?_⟩
      intro i row y p hrow hy hp
      have hv : (List.zipWith (fun y p => y - p)
          (dfGetCol (dfDropCol (dfFilterEq train treatment_col 1) treatment_col)
            target_col)
          (predict pr.trained_model (dfDropCol (dfFilterEq train treatment_col 1)
            treatment_col))).get? i = some (y - p) := by
        refine get?_zipWith _ _ _ _ _ _ ?_ hp
        unfold dfGetCol
        rw [List.get?_map, hrow]
        simp [hy]
      refine ⟨row.map (fun kv => if kv.1 = target_col then (kv.1, y - p) else kv),
        ?_, ?_⟩
      · unfold dfSetCol
        exact get?_zipWith _ _ _ _ _ _ hrow hv
      · exact lookup_map_set row target_col (y - p) y hy
  · intro h1 h2
    simp [prepare_data_for_stage, hlook, h1, h2]

/-- Witness for `depth2_stage_preparation` at a concrete cache, stage
chain and dataset. -/
theorem depth2_stage_preparation_witness :
    ∃ d, prepare_data_for_stage
        (fun m df => df.map (fun _ => (m : ℚ))) [(["outcome_treatment"], [⟨"A", none, 3, []⟩])]
        [(MetaLearnerStage.mk "outcome_treatment" none, "A"),
         (MetaLearnerStage.mk "effect_control" (some (.mk "outcome_treatment" none)), "B")]
        [[("t", 0), ("y", 5)], [("t", 1), ("y", 7)]]
        [("treatment", "t"), ("target", "y")] "treatment" "t" "target" "y" =
      some (d, rolesPop [("treatment", "t"), ("target", "y")] "treatment") ∧
    ∃ row', d.get? 0 = some row' ∧ row'.lookup "y" = some ((3 : ℚ) - 5) := by
  have hmain := depth2_stage_preparation
    (fun m df => df.map (fun _ => (m : ℚ)))
    [(["outcome_treatment"], [⟨"A", none, 3, []⟩])]
    (MetaLearnerStage.mk "outcome_treatment" none)
    (MetaLearnerStage.mk "effect_control" (some (.mk "outcome_treatment" none)))
    "A" "B" [[("t", 0), ("y", 5)], [("t", 1), ("y", 7)]]
    [("treatment", "t"), ("target", "y")] "treatment" "t" "target" "y"
    ⟨"A", none, 3, []⟩ (by decide)
  obtain ⟨d, hd, hrest⟩ := hmain.1 rfl
  refine ⟨d, hd, ?_⟩
  have := (hrest _ rfl).2 0 [("y", 5)] 5 3 (by decide) (by decide) (by decide)
  exact this

/-! ## C4: assembled metalearner held-out predictions -/

/-- C4.  The held-out uplift prediction of an assembled metalearner is
computed elementwise: for `TLearner`, the `outcome_treatment` stage
prediction minus the `outcome_control` stage prediction; for `XLearner`,
propensity times the `effect_treatment` prediction plus (1 − propensity)
times the `effect_control` prediction; any other metalearner name raises a
fatal error. -/
theorem metalearner_predict_formulas
    (bls : List (MLStageFullName × TrainedStageBaseLearner)) :
    (∀ c t, comboLookup bls ["outcome_control"] = some c →
      comboLookup bls ["outcome_treatment"] = some t →
      ∃ u, metalearner_predict "TLearner" bls = some u ∧
        ∀ i a b, t.pred.get? i = some a → c.pred.get? i = some b →
          u.get? i = some (a - b)) ∧
    (∀ c t p, comboLookup bls ["outcome_treatment", "effect_control"] = some c →
      comboLookup bls ["outcome_control", "effect_treatment"] = some t →
      comboLookup bls ["propensity"] = some p →
      ∃ u, metalearner_predict "XLearner" bls = some u ∧
        ∀ i a b q, p.pred.get? i = some q → t.pred.get? i = some a →
          c.pred.get? i = some b →
          u.get? i = some (q * a + (1 - q) * b)) ∧
    (∀ ml, ml ≠ "TLearner" → ml ≠ "XLearner" →
      metalearner_predict ml bls = none) := by
  refine ⟨?_, ?_, ?_⟩
  · intro c t hc ht
    refine ⟨List.zipWith (fun tp cp => tp - cp) t.pred c.pred, ?_, ?_⟩
    · simp [metalearner_predict, hc, ht]
    · intro i a b ha hb
      exact get?_zipWith _ _ _ _ _ _ ha hb
  · intro c t p hc ht hp
    refine ⟨zipWith3 (fun pp tp cp => pp * tp + (1 - pp) * cp) p.pred t.pred c.pred,
      ?_, ?_⟩
    · simp [metalearner_predict, hc, ht, hp]
    · intro i a b q hq ha hb
      exact get?_zipWith3 _ _ _ _ _ _ _ _ hq ha hb
  · intro ml h1 h2
    simp [metalearner_predict, h1, h2]

/-- Witness for `metalearner_predict_formulas` at a concrete stage
assignment. -/
theorem metalearner_predict_formulas_witness :
    (∃ u, metalearner_predict "XLearner"
        [(["outcome_treatment", "effect_control"], ⟨"X", some "A", 0, [4]⟩),
         (["outcome_control", "effect_treatment"], ⟨"Y", some "A", 1, [10]⟩),
         (["propensity"], ⟨"P", none, 2, [2]⟩)] = some u ∧
      u.get? 0 = some 16) ∧
    metalearner_predict "SLearner" [] = none := by
  constructor
  · obtain ⟨u, hu, helt⟩ :=
      (metalearner_predict_formulas
        [(["outcome_treatment", "effect_control"], ⟨"X", some "A", 0, [4]⟩),
         (["outcome_control", "effect_treatment"], ⟨"Y", some "A", 1, [10]⟩),
         (["propensity"], ⟨"P", none, 2, [2]⟩)]).2.1
        ⟨"X", some "A", 0, [4]⟩ ⟨"Y", some "A", 1, [10]⟩ ⟨"P", none, 2, [2]⟩
        (by rfl) (by rfl) (by rfl)
    refine ⟨u, hu, ?_⟩
    have := helt 0 10 4 2 rfl rfl rfl
    rw [this]
    norm_num
  · exact (metalearner_predict_formulas []).2.2 "SLearner" (by decide) (by decide)

/-! ## C10: best-metalearner selection -/

theorem betterScore_false_iff (inc : Bool) (new cur : ℚ) :
    betterScore inc new cur = false ↔ (if inc then new ≤ cur else cur ≤ new) := by
  cases inc <;> simp [betterScore, not_lt]

theorem betterScore_true_iff (inc : Bool) (new cur : ℚ) :
    betterScore inc new cur = true ↔ (if inc then cur < new else new < cur) := by
  cases inc <;> simp [betterScore]

theorem pickBest_mem (inc : Bool) :
    ∀ (l : List (TrainedMetaLearnerFullName × ℚ)) (cur),
    pickBest inc cur l ∈ cur :: l := by
  intro l
  induction l with
  | nil => intro cur; simp [pickBest]
  | cons kv l ih =>
      intro cur
      rw [pickBest]
      by_cases hb : betterScore inc kv.2 cur.2 = true
      · rw [if_pos hb]
        rcases List.mem_cons.1 (ih kv) with h | h
        · rw [h]
          exact List.mem_cons_of_mem _ (List.mem_cons_self _ _)
        · exact List.mem_cons_of_mem _ (List.mem_cons_of_mem _ h)
      · rw [if_neg hb]
        rcases List.mem_cons.1 (ih cur) with h | h
        · rw [h]
          exact List.mem_cons_self _ _
        · exact List.mem_cons_of_mem _ (List.mem_cons_of_mem _ h)

theorem pickBest_not_better (inc : Bool) :
    ∀ (l : List (TrainedMetaLearnerFullName × ℚ)) (cur) (x),
    x ∈ cur :: l → betterScore inc x.2 (pickBest inc cur l).2 = false := by
  intro l
  induction l with
  | nil =>
      intro cur x hx
      rcases List.mem_cons.1 hx with h | h
      · rw [h, pickBest, betterScore_false_iff]
        split <;> exact le_refl _
      · exact absurd h (List.not_mem_nil x)
  | cons kv l ih =>
      intro cur x hx
      rw [pickBest]
      by_cases hb : betterScore inc kv.2 cur.2 = true
      · rw [if_pos hb]
        rcases List.mem_cons.1 hx with h | h
        · have hkv := ih kv kv (List.mem_cons_self _ _)
          rw [betterScore_false_iff] at hkv ⊢
          rw [betterScore_true_iff] at hb
          rw [h]
          cases inc with
          | false =>
              rw [if_neg Bool.false_ne_true] at hkv hb ⊢
              exact le_trans hkv (le_of_lt hb)
          | true =>
              rw [if_pos rfl] at hkv hb ⊢
              exact le_trans (le_of_lt hb) hkv
        · exact ih kv x h
      · rw [if_neg hb]
        rcases List.mem_cons.1 hx with h | h
        · rw [h]
          exact ih cur cur (List.mem_cons_self _ _)
        · rcases List.mem_cons.1 h with h2 | h2
          · have hcur := ih cur cur (List.mem_cons_self _ _)
            rw [betterScore_false_iff] at hcur ⊢
            rw [Bool.not_eq_true, betterScore_false_iff] at hb
            rw [h2]
            cases inc with
            | false =>
                rw [if_neg Bool.false_ne_true] at hcur hb ⊢
                exact le_trans hcur hb
            | true =>
                rw [if_pos rfl] at hcur hb ⊢
                exact le_trans hb hcur
          · exact ih cur x (List.mem_cons_of_mem _ h2)

theorem pickBest_first (inc : Bool) :
    ∀ (l : List (TrainedMetaLearnerFullName × ℚ)) (cur),
    ∃ pre post, cur :: l = pre ++ pickBest inc cur l :: post ∧
      ∀ y ∈ pre, betterScore inc (pickBest inc cur l).2 y.2 = true := by
  intro l
  induction l with
  | nil =>
      intro cur
      refine ⟨[], [], by simp [pickBest], ?_⟩
      intro y hy
      exact absurd hy (List.not_mem_nil y)
  | cons kv l ih =>
      intro cur
      rw [pickBest]
      by_cases hb : betterScore inc kv.2 cur.2 = true
      · rw [if_pos hb]
        obtain ⟨pre, post, hdec, hpre⟩ := ih kv
        refine ⟨cur :: pre, post, by rw [List.cons_append, ← hdec], ?_⟩
        intro y hy
        rcases List.mem_cons.1 hy with h | h
        · have hkv := pickBest_not_better inc l kv kv (List.mem_cons_self _ _)
          rw [betterScore_false_iff] at hkv
          rw [betterScore_true_iff] at hb ⊢
          rw [h]
          cases inc with
          | false =>
              rw [if_neg Bool.false_ne_true] at hkv hb ⊢
              exact lt_of_le_of_lt hkv hb
          | true =>
              rw [if_pos rfl] at hkv hb ⊢
              exact lt_of_lt_of_le hb hkv
        · exact hpre y h
      · rw [if_neg hb]
        obtain ⟨pre, post, hdec, hpre⟩ := ih cur
        cases pre with
        | nil =>
            rw [List.nil_append] at hdec
            injection hdec with h1 h2
            refine ⟨[], kv :: l, ?_, ?_⟩
            · rw [List.nil_append, ← h1]
            · intro y hy
              exact absurd hy (List.not_mem_nil y)
        | cons q pre2 =>
            rw [List.cons_append] at hdec
            injection hdec with hq hl
            refine ⟨cur :: kv :: pre2, post, ?_, ?_⟩
            · rw [List.cons_append, List.cons_append, ← hl]
            · intro y hy
              have hcq := hpre q (List.mem_cons_self _ _)
              rw [← hq] at hcq
              rcases List.mem_cons.1 hy with h | h
              · rw [h]
                exact hcq
              · rcases List.mem_cons.1 h with h2 | h2
                · rw [Bool.not_eq_true, betterScore_false_iff] at hb
                  rw [betterScore_true_iff] at hcq ⊢
                  rw [h2]
                  cases inc with
                  | false =>
                      rw [if_neg Bool.false_ne_true] at hb hcq ⊢
                      exact lt_of_lt_of_le hcq hb
                  | true =>
                      rw [if_pos rfl] at hb hcq ⊢
                      exact lt_of_le_of_lt hb hcq
                · exact hpre y (List.mem_cons_of_mem _ h2)

theorem set_best_foldl_from_some (inc : Bool) :
    ∀ (l : List (TrainedMetaLearnerFullName × ℚ)) (cur),
    (l.foldl (fun best kv =>
      match best with
      | none => some kv
      | some bkv =>
          if betterScore inc kv.2 bkv.2 then some kv else some bkv)
      (some cur)) = some (pickBest inc cur l) := by
  intro l
  induction l with
  | nil => intro cur; rfl
  | cons kv l ih =>
      intro cur
      rw [List.foldl_cons, pickBest]
      by_cases hb : betterScore inc kv.2 cur.2 = true
      · simp only [hb, if_true]
        exact ih kv
      · simp only [Bool.not_eq_true] at hb
        simp only [hb, Bool.false_eq_true, if_false]
        exact ih cur

/-- C10.  Best-metalearner selection on a nonempty score table returns an
entry of the table that is extremal under the configured direction, and on
ties the first-encountered entry of the table's insertion order is kept:
every entry strictly preceding the selected one has a strictly worse
score. -/
theorem set_best_selects_first_extremal (inc : Bool)
    (kv0 : TrainedMetaLearnerFullName × ℚ)
    (l : List (TrainedMetaLearnerFullName × ℚ)) :
    ∃ best, set_best_metalearner inc (kv0 :: l) = some best ∧
      best ∈ kv0 :: l ∧
      (∀ x ∈ kv0 :: l, if inc then x.2 ≤ best.2 else best.2 ≤ x.2) ∧
      ∃ pre post, kv0 :: l = pre ++ best :: post ∧
        ∀ y ∈ pre, if inc then y.2 < best.2 else best.2 < y.2 := by
  refine ⟨pickBest inc kv0 l, ?_, pickBest_mem inc l kv0, ?_, ?_⟩
  · rw [set_best_metalearner, List.foldl_cons]
    exact set_best_foldl_from_some inc l kv0
  · intro x hx
    have := pickBest_not_better inc l kv0 x hx
    rw [betterScore_false_iff] at this
    exact this
  · obtain ⟨pre, post, hdec, hpre⟩ := pickBest_first inc l kv0
    refine ⟨pre, post, hdec, ?_⟩
    intro y hy
    have := hpre y hy
    rw [betterScore_true_iff] at this
    exact this

/-- Witness for `set_best_selects_first_extremal` on a concrete score
table with a tie: the first of the two maximal entries must be kept. -/
theorem set_best_selects_first_extremal_witness :
    ∃ best : TrainedMetaLearnerFullName × ℚ,
      set_best_metalearner true
        ([(("TLearner", []), 1), (("XLearner", []), 2), (("TLearner2", []), 2)] :
          List (TrainedMetaLearnerFullName × ℚ)) = some best ∧
      best ∈ ([(("TLearner", []), 1), (("XLearner", []), 2), (("TLearner2", []), 2)] :
          List (TrainedMetaLearnerFullName × ℚ)) ∧
      (∀ x ∈ ([(("TLearner", []), 1), (("XLearner", []), 2), (("TLearner2", []), 2)] :
          List (TrainedMetaLearnerFullName × ℚ)),
        if true then x.2 ≤ best.2 else best.2 ≤ x.2) ∧
      ∃ pre post,
        ([(("TLearner", []), 1), (("XLearner", []), 2), (("TLearner2", []), 2)] :
          List (TrainedMetaLearnerFullName × ℚ)) = pre ++ best :: post ∧
        ∀ y ∈ pre, if true then y.2 < best.2 else best.2 < y.2 :=
  set_best_selects_first_extremal true (("TLearner", []), 1)
    [(("XLearner", []), 2), (("TLearner2", []), 2)]

/-! ## C6: the parameter-override bug of `update_baselearner_params` -/

/-- C6 (bug evaluation).  `create_best_metalearner` applied with the
override `{'timeout': 0}` to a best-metalearner wrapper holding one
base-learner wrapper directly as a dict value (`control_learner`, as in
every TLearner wrapper) and one inside a list (`outcome_learners`, as in
every XLearner wrapper): the returned specification keeps the old
`timeout = 10` for the dict-held wrapper — the override is applied only to
the list-held wrapper — because the source stores the deepcopy `v_t` taken
*before* `v.update_params(d)` into the new params dict. -/
theorem update_baselearner_params_skips_dict_held_wrappers :
    create_best_metalearner
        ⟨"__ML__TLearner",
         [("control_learner", .blw ⟨"__Tabular__", [("timeout", 10)]⟩),
          ("outcome_learners", .vlist [.inl ⟨"__Tabular__", [("timeout", 10)]⟩])]⟩
        [("timeout", 0)] =
      ⟨"__ML__TLearner",
       [("control_learner", .blw ⟨"__Tabular__", [("timeout", 10)]⟩),
        ("outcome_learners", .vlist [.inl ⟨"__Tabular__", [("timeout", 0)]⟩])]⟩ ∧
    (10 : Int) ≠ 0 :=
  ⟨rfl, by decide⟩

/-! ## C9: empty candidate list for one stage -/

/-- C9 (bug evaluation).  With an empty candidate list configured for
`outcome_control` (and one candidate for every other stage), the scheduler
does yield a submission for the empty stage — `zip_longest` pads the
exhausted iterator with `None` — and the training loop crashes fatally on
that very first submission (`bl_wrap()` with `bl_wrap = None`), instead of
skipping the empty stage and training the other stages' candidates. -/
theorem empty_stage_yields_none_submission :
    (genRun cfgEmptyStage (fun _ => 0)).head? =
      some (Submission.l1 ["outcome_control"] none) ∧
    runFit id (fun _ => []) (fun _ => false) (genRun cfgEmptyStage (fun _ => 0)) =
      (none, 1) :=
  ⟨rfl, rfl⟩

/-! ## C7: reproducibility and the global random source -/

/-- C7 (counterexample).  Two runs with the same `random_state`, the same
data and the same candidate set produce different (stage, candidate)
submission sequences when the global numpy random source they draw from is
in different states: `random_state` does not feed the scheduler's
randomness. -/
theorem scheduler_depends_on_global_rng :
    genRun cfgTwoCands (fun _ => 0) ≠ genRun cfgTwoCands (fun _ => 1) := by
  decide

/-- C7 (amended).  For two runs of fit over the same data and candidate
set with the same `random_state` *and the same draws from the global numpy
random source*, the sequence of (stage, candidate) training submissions is
identical and the selected best metalearner is identical.  (Only the
external `train_test_split` is seeded by `random_state`; the level-2
draining draws come from the unseeded global source.) -/
theorem fit_reproducible_given_rng_draws (random_state : Nat)
    (cfg : List (MLStageFullName × List String)) (r₁ r₂ : Nat → Nat)
    (timer : Nat → Bool) (modelOf : Nat → Nat) (predOf : Nat → List ℚ)
    (metric : List ℚ → ℚ) (inc : Bool) (h : ∀ t, r₁ t = r₂ t) :
    genRun cfg r₁ = genRun cfg r₂ ∧
    fitSelect random_state cfg r₁ timer modelOf predOf metric inc =
      fitSelect random_state cfg r₂ timer modelOf predOf metric inc := by
  have hr : r₁ = r₂ := funext h
  rw [hr]
  exact ⟨rfl, rfl⟩

/-- Witness for `fit_reproducible_given_rng_draws`. -/
theorem fit_reproducible_given_rng_draws_witness :
    genRun cfgTwoCands (fun _ => 0) = genRun cfgTwoCands (fun _ => 0) ∧
    fitSelect 42 cfgTwoCands (fun _ => 0) (fun _ => false) id (fun _ => [])
        (fun _ => 0) true =
      fitSelect 42 cfgTwoCands (fun _ => 0) (fun _ => false) id (fun _ => [])
        (fun _ => 0) true :=
  fit_reproducible_given_rng_draws 42 cfgTwoCands (fun _ => 0) (fun _ => 0)
    (fun _ => false) id (fun _ => []) (fun _ => 0) true (fun _ => rfl)

/-! ## C1: prerequisite-candidate consistency of assembly -/

theorem filterMap_length_eq_forall_isSome {f : α → Option β} :
    ∀ l : List α, (l.filterMap f).length = l.length →
    ∀ a ∈ l, (f a).isSome := by
  intro l
  induction l with
  | nil => intro _ a ha; exact absurd ha (List.not_mem_nil a)
  | cons x xs ih =>
      intro hlen a ha
      rw [List.filterMap_cons] at hlen
      cases hf : f x with
      | none =>
          rw [hf] at hlen
          have hle := List.length_filterMap_le f xs
          simp only [List.length_cons] at hlen
          omega
      | some b =>
          rw [hf] at hlen
          simp only [List.length_cons, Nat.succ_inj] at hlen
          rcases List.mem_cons.1 ha with h | h
          · rw [h, hf]; rfl
          · exact ih hlen a h

/-- C1.  In every cross-product combination, a metalearner's stage
assignment includes a record conditioned on a prerequisite candidate only
when the combination's record for the prerequisite stage identity
(`full_name[0:1]`) has exactly that candidate display name; and a
combination in which a required stage's record carries a mismatched
prerequisite candidate never assembles that metalearner at all. -/
theorem assembly_prereq_consistency :
    (∀ (setBls : List (MLStageFullName × TrainedStageBaseLearner)) mlName mlBls,
      (mlName, mlBls) ∈ comboAssign setBls →
      ∀ fn r p, (fn, r) ∈ mlBls → r.prev_stage_bl = some p →
        ∃ rp, comboLookup setBls (fn.take 1) = some rp ∧ rp.stage_bl = p) ∧
    (∀ (setBls : List (MLStageFullName × TrainedStageBaseLearner)) ms,
      ms ∈ MAP_META_TO_STAGES → ∀ st ∈ ms.2, ∀ r p rp,
      comboLookup setBls st.full_name = some r → r.prev_stage_bl = some p →
      comboLookup setBls (st.full_name.take 1) = some rp → rp.stage_bl ≠ p →
      ∀ mlBls, (ms.1, mlBls) ∉ comboAssign setBls) := by
  constructor
  · intro setBls mlName mlBls hmem fn r p hfr hp
    obtain ⟨ms, hms, hsome⟩ := List.mem_filterMap.1 hmem
    by_cases hlen : (comboAssignMl ms.2 setBls).length = ms.2.length
    · rw [if_pos hlen] at hsome
      simp only [Option.some.injEq, Prod.mk.injEq] at hsome
      rw [← hsome.2] at hfr
      obtain ⟨st, hst, hf⟩ := List.mem_filterMap.1 hfr
      simp only [comboAssignStage] at hf
      cases hcl : comboLookup setBls st.full_name with
      | none => rw [hcl] at hf; simp at hf
      | some r0 =>
          rw [hcl] at hf
          dsimp only at hf
          cases hprev : r0.prev_stage_bl with
          | none =>
              rw [hprev] at hf
              dsimp only at hf
              simp only [Option.some.injEq, Prod.mk.injEq] at hf
              rw [← hf.2, hprev] at hp
              exact absurd hp (by simp)
          | some q =>
              rw [hprev] at hf
              dsimp only at hf
              cases hcl2 : comboLookup setBls (st.full_name.take 1) with
              | none => rw [hcl2] at hf; simp at hf
              | some rp =>
                  rw [hcl2] at hf
                  dsimp only at hf
                  by_cases hq : rp.stage_bl = q
                  · rw [if_pos hq] at hf
                    simp only [Option.some.injEq, Prod.mk.injEq] at hf
                    obtain ⟨hfn, hr⟩ := hf
                    rw [← hr, hprev] at hp
                    injection hp with hqp
                    refine ⟨rp, ?_, ?_⟩
                    · rw [← hfn]; exact hcl2
                    · rw [hq, hqp]
                  · rw [if_neg hq] at hf
                    simp at hf
    · rw [if_neg hlen] at hsome
      simp at hsome
  · intro setBls ms hms st hst r p rp hcl hp hcl2 hne mlBls hmem
    obtain ⟨ms', hms', hsome⟩ := List.mem_filterMap.1 hmem
    by_cases hlen : (comboAssignMl ms'.2 setBls).length = ms'.2.length
    · rw [if_pos hlen] at hsome
      simp only [Option.some.injEq, Prod.mk.injEq] at hsome
      have h1 := hsome.1
      have hmseq : ms' = ms := by
        simp only [MAP_META_TO_STAGES, List.mem_cons, List.not_mem_nil, or_false]
          at hms hms'
        rcases hms with h | h <;> rcases hms' with h' | h' <;>
          (try (rw [h, h'])) <;> rw [h, h'] at h1 <;> simp at h1
      rw [hmseq] at hlen
      have hall := filterMap_length_eq_forall_isSome ms.2 hlen st hst
      simp only [comboAssignStage] at hall
      rw [hcl] at hall
      dsimp only at hall
      rw [hp] at hall
      dsimp only at hall
      rw [hcl2] at hall
      dsimp only at hall
      rw [if_neg hne] at hall
      simp at hall
    · rw [if_neg hlen] at hsome
      simp at hsome

/-- Witness for `assembly_prereq_consistency` at a concrete combination:
the `effect_control` record trained against prerequisite candidate `A`
forces the combination's `outcome_treatment` record to be candidate
`A`. -/
theorem assembly_prereq_consistency_witness :
    ∃ rp, comboLookup
        [(["outcome_control"], ⟨"A", none, 0, []⟩),
         (["outcome_treatment"], ⟨"A", none, 1, []⟩),
         (["propensity"], ⟨"A", none, 2, []⟩),
         (["outcome_treatment", "effect_control"], ⟨"X", some "A", 3, []⟩),
         (["outcome_control", "effect_treatment"], ⟨"Y", some "A", 4, []⟩)]
        (["outcome_treatment", "effect_control"].take 1) = some rp ∧
      rp.stage_bl = "A" := by
  refine assembly_prereq_consistency.1
    [(["outcome_control"], ⟨"A", none, 0, []⟩),
     (["outcome_treatment"], ⟨"A", none, 1, []⟩),
     (["propensity"], ⟨"A", none, 2, []⟩),
     (["outcome_treatment", "effect_control"], ⟨"X", some "A", 3, []⟩),
     (["outcome_control", "effect_treatment"], ⟨"Y", some "A", 4, []⟩)]
    "XLearner"
    [(["outcome_control"], ⟨"A", none, 0, []⟩),
     (["outcome_treatment"], ⟨"A", none, 1, []⟩),
     (["propensity"], ⟨"A", none, 2, []⟩),
     (["outcome_treatment", "effect_control"], ⟨"X", some "A", 3, []⟩),
     (["outcome_control", "effect_treatment"], ⟨"Y", some "A", 4, []⟩)]
    (by decide) ["outcome_treatment", "effect_control"] ⟨"X", some "A", 3, []⟩
    "A" (by decide) rfl

/-! ## Cache bookkeeping lemmas -/

theorem cacheLookup_append (c : Cache) (k : MLStageFullName)
    (r : TrainedStageBaseLearner) (x : MLStageFullName) :
    cacheLookup (cacheAppend c k r) x =
      if x = k then some ((cacheLookup c k).getD [] ++ [r])
      else cacheLookup c x := by
  induction c with
  | nil =>
      by_cases h : x = k
      · simp [cacheAppend, cacheLookup, h]
      · simp [cacheAppend, cacheLookup, h, Ne.symm h]
  | cons p ps ih =>
      by_cases hp : p.1 = k
      · rw [cacheAppend, if_pos hp]
        by_cases hx : x = k
        · rw [cacheLookup, if_pos (by rw [hp, hx]), if_pos hx,
            cacheLookup, if_pos hp]
          simp
        · rw [cacheLookup, if_neg (fun a => hx (a.symm.trans hp)), if_neg hx,
            cacheLookup, if_neg (fun a => hx (a.symm.trans hp))]
      · rw [cacheAppend, if_neg hp]
        by_cases hx : p.1 = x
        · rw [cacheLookup, if_pos hx,
            if_neg (fun a => hp (hx.trans a)),
            cacheLookup, if_pos hx]
        · rw [cacheLookup, if_neg hx, ih]
          by_cases hxk : x = k
          · rw [if_pos hxk, if_pos hxk, cacheLookup, if_neg hp]
          · rw [if_neg hxk, if_neg hxk, cacheLookup, if_neg hx]

theorem cacheLookup_none_iff (c : Cache) (k : MLStageFullName) :
    cacheLookup c k = none ↔ k ∉ c.map Prod.fst := by
  induction c with
  | nil => simp [cacheLookup]
  | cons p ps ih =>
      by_cases hp : p.1 = k
      · simp [cacheLookup, hp]
      · simp only [cacheLookup, if_neg hp, List.map_cons, List.mem_cons, ih]
        constructor
        · intro h
          exact fun hc => hc.elim (fun a => hp a.symm) h
        · intro h
          exact fun hc => h (Or.inr hc)

theorem cacheLookup_some_mem (c : Cache) (k : MLStageFullName)
    (l : List TrainedStageBaseLearner) (h : cacheLookup c k = some l) :
    (k, l) ∈ c := by
  induction c with
  | nil => simp [cacheLookup] at h
  | cons p ps ih =>
      by_cases hp : p.1 = k
      · rw [cacheLookup, if_pos hp] at h
        injection h with h2
        have hpe : (k, l) = p := by
          obtain ⟨p1, p2⟩ := p
          simp only at hp h2
          rw [hp, h2]
        rw [hpe]
        exact List.mem_cons_self _ _
      · rw [cacheLookup, if_neg hp] at h
        exact List.mem_cons_of_mem _ (ih h)

theorem lookupD_append_mono (c : Cache) (k : MLStageFullName)
    (r : TrainedStageBaseLearner) (x : MLStageFullName)
    (rp : TrainedStageBaseLearner)
    (h : rp ∈ (cacheLookup c x).getD []) :
    rp ∈ (cacheLookup (cacheAppend c k r) x).getD [] := by
  rw [cacheLookup_append]
  by_cases hx : x = k
  · rw [if_pos hx, Option.getD_some]
    rw [hx] at h
    exact List.mem_append_left _ h
  · rw [if_neg hx]
    exact h

theorem cacheKeys_append (c : Cache) (k : MLStageFullName)
    (r : TrainedStageBaseLearner) :
    (cacheAppend c k r).map Prod.fst =
      if (cacheLookup c k).isSome then c.map Prod.fst
      else c.map Prod.fst ++ [k] := by
  induction c with
  | nil => simp [cacheAppend, cacheLookup]
  | cons p ps ih =>
      by_cases hp : p.1 = k
      · rw [cacheAppend, if_pos hp, cacheLookup, if_pos hp]
        simp
      · rw [cacheAppend, if_neg hp, cacheLookup, if_neg hp]
        rw [List.map_cons, List.map_cons, ih]
        by_cases hs : (cacheLookup ps k).isSome
        · rw [if_pos hs, if_pos hs]
        · rw [if_neg hs, if_neg hs, List.cons_append]

theorem mem_cacheAppend (c : Cache) (k : MLStageFullName)
    (r : TrainedStageBaseLearner) (q : MLStageFullName × List TrainedStageBaseLearner)
    (h : q ∈ cacheAppend c k r) :
    q ∈ c ∨ (∃ l, cacheLookup c k = some l ∧ q = (k, l ++ [r])) ∨
      (cacheLookup c k = none ∧ q = (k, [r])) := by
  induction c with
  | nil =>
      simp only [cacheAppend, List.mem_cons, List.not_mem_nil, or_false] at h
      right; right
      exact ⟨rfl, h⟩
  | cons p ps ih =>
      by_cases hp : p.1 = k
      · rw [cacheAppend, if_pos hp] at h
        rcases List.mem_cons.1 h with h1 | h1
        · right; left
          refine ⟨p.2, ?_, ?_⟩
          · rw [cacheLookup, if_pos hp]
          · rw [h1, hp]
        · left
          exact List.mem_cons_of_mem _ h1
      · rw [cacheAppend, if_neg hp] at h
        rcases List.mem_cons.1 h with h1 | h1
        · left
          rw [h1]
          exact List.mem_cons_self _ _
        · rcases ih h1 with h2 | h2 | h2
          · exact Or.inl (List.mem_cons_of_mem _ h2)
          · right; left
            obtain ⟨l, hl, hq⟩ := h2
            exact ⟨l, by rw [cacheLookup, if_neg hp]; exact hl, hq⟩
          · right; right
            exact ⟨by rw [cacheLookup, if_neg hp]; exact h2.1, h2.2⟩

theorem dictInsert_ne_nil (tbl : List (TrainedMetaLearnerFullName × ℚ))
    (k : TrainedMetaLearnerFullName) (v : ℚ) : dictInsert tbl k v ≠ [] := by
  unfold dictInsert
  by_cases h : tbl.any (fun kv => kv.1 == k) = true
  · rw [if_pos h]
    cases tbl with
    | nil => simp at h
    | cons a l => simp
  · rw [if_neg h]
    simp

theorem headD_mem (l : List α) (d : α) (h : l ≠ []) : l.headD d ∈ l := by
  cases l with
  | nil => exact absurd rfl h
  | cons a l => exact List.mem_cons_self _ _

theorem headD_filter_prop (q : α → Bool) (l : List α) (d : α) (a : α)
    (ha : a ∈ l) (hq : q a = true) :
    q ((l.filter q).headD d) = true ∧ (l.filter q).headD d ∈ l := by
  have hne : l.filter q ≠ [] := by
    intro hnil
    have := List.mem_filter.2 ⟨ha, hq⟩
    rw [hnil] at this
    exact absurd this (List.not_mem_nil a)
  have hmem := headD_mem (l.filter q) d hne
  have := List.mem_filter.1 hmem
  exact ⟨this.2, this.1⟩

theorem mem_flatMapL (f : α → List β) (x : β) :
    ∀ l : List α, x ∈ flatMapL f l ↔ ∃ a ∈ l, x ∈ f a := by
  intro l
  induction l with
  | nil => simp [flatMapL]
  | cons a l ih =>
      rw [flatMapL, List.mem_append, ih]
      constructor
      · rintro (h | ⟨b, hb, hx⟩)
        · exact ⟨a, List.mem_cons_self _ _, h⟩
        · exact ⟨b, List.mem_cons_of_mem _ hb, hx⟩
      · rintro ⟨b, hb, hx⟩
        rcases List.mem_cons.1 hb with h | h
        · left; rw [← h]; exact hx
        · right; exact ⟨b, h, hx⟩

theorem mem_listProd :
    ∀ (ls : List (List α)) (combo : List α),
    List.Forall₂ (fun a l => a ∈ l) combo ls → combo ∈ listProd ls := by
  intro ls
  induction ls with
  | nil =>
      intro combo h
      cases h
      simp [listProd]
  | cons l ls ih =>
      intro combo h
      cases h with
      | cons ha hrest =>
          rw [listProd, mem_flatMapL]
          rename_i a combo'
          exact ⟨_, ha, List.mem_map.2 ⟨combo', ih combo' hrest, rfl⟩⟩

theorem forall₂_map_mem (c : Cache) (g : MLStageFullName × List TrainedStageBaseLearner →
      TrainedStageBaseLearner)
    (hg : ∀ p ∈ c, g p ∈ p.2) :
    List.Forall₂ (fun a l => a ∈ l) (c.map g) (c.map Prod.snd) := by
  induction c with
  | nil => exact List.Forall₂.nil
  | cons p ps ih =>
      exact List.Forall₂.cons (hg p (List.mem_cons_self _ _))
        (ih (fun q hq => hg q (List.mem_cons_of_mem _ hq)))

theorem comboLookup_zip_map (g : MLStageFullName × List TrainedStageBaseLearner →
      TrainedStageBaseLearner) :
    ∀ (c : Cache) (fn : MLStageFullName) (rs : List TrainedStageBaseLearner),
    cacheLookup c fn = some rs →
    comboLookup ((c.map Prod.fst).zip (c.map g)) fn = some (g (fn, rs)) := by
  intro c
  induction c with
  | nil => intro fn rs h; simp [cacheLookup] at h
  | cons p ps ih =>
      intro fn rs h
      by_cases hp : p.1 = fn
      · rw [cacheLookup, if_pos hp] at h
        injection h with h2
        rw [List.map_cons, List.map_cons, List.zip_cons_cons, comboLookup, if_pos hp]
        have : p = (fn, rs) := by
          obtain ⟨p1, p2⟩ := p
          simp only at hp h2
          rw [hp, h2]
        rw [this]
      · rw [cacheLookup, if_neg hp] at h
        rw [List.map_cons, List.map_cons, List.zip_cons_cons, comboLookup, if_neg hp]
        exact ih fn rs h

theorem comboAssignStage_fst
    (setBls : List (MLStageFullName × TrainedStageBaseLearner))
    (st : MetaLearnerStage) (v : MLStageFullName × TrainedStageBaseLearner)
    (h : comboAssignStage setBls st = some v) :
    v.1 = st.full_name ∧ comboLookup setBls st.full_name = some v.2 := by
  simp only [comboAssignStage] at h
  cases hcl : comboLookup setBls st.full_name with
  | none => rw [hcl] at h; simp at h
  | some r =>
      rw [hcl] at h
      dsimp only at h
      cases hprev : r.prev_stage_bl with
      | none =>
          rw [hprev] at h
          injection h with h2
          rw [← h2]
          refine ⟨rfl, ?_⟩
          simpa using hcl
      | some p =>
          rw [hprev] at h
          dsimp only at h
          cases hcl2 : comboLookup setBls (st.full_name.take 1) with
          | none => rw [hcl2] at h; simp at h
          | some rp =>
              rw [hcl2] at h
              dsimp only at h
              by_cases hq : rp.stage_bl = p
              · rw [if_pos hq] at h
                injection h with h2
                rw [← h2]
                refine ⟨rfl, ?_⟩
                simpa using hcl
              · rw [if_neg hq] at h
                simp at h

/-! ## Cache well-formedness through the training loop -/

theorem cacheAppend_wf (cache : Cache) (stg : MLStageFullName)
    (rec : TrainedStageBaseLearner) (hwf : CacheWF cache)
    (hprev : ∀ b, rec.prev_stage_bl = some b →
      stg.length = 2 ∧
      ∃ rp ∈ (cacheLookup cache (stg.take 1)).getD [], rp.stage_bl = b)
    (hd1 : stg.length = 1 → rec.prev_stage_bl = none) :
    CacheWF (cacheAppend cache stg rec) := by
  constructor
  · rw [cacheKeys_append]
    by_cases hs : (cacheLookup cache stg).isSome
    · rw [if_pos hs]
      exact hwf.keysNodup
    · rw [if_neg hs]
      have hnm : stg ∉ cache.map Prod.fst := by
        rw [← cacheLookup_none_iff]
        cases hl : cacheLookup cache stg with
        | none => rfl
        | some l => rw [hl] at hs; exact absurd rfl hs
      rw [List.nodup_append]
      refine ⟨hwf.keysNodup, List.nodup_singleton _, ?_⟩
      intro a ha hb
      rw [List.mem_singleton] at hb
      rw [hb] at ha
      exact hnm ha
  · intro q hq
    rcases mem_cacheAppend cache stg rec q hq with h | h | h
    · exact hwf.entriesNonempty q h
    · obtain ⟨l, _, hql⟩ := h
      rw [hql]
      simp
    · rw [h.2]
      simp
  · intro q hq r hr b hb
    rcases mem_cacheAppend cache stg rec q hq with h | h | h
    · obtain ⟨rp, hrp, hrpb⟩ := hwf.prevClosed q h r hr b hb
      exact ⟨rp, lookupD_append_mono cache stg rec _ rp hrp, hrpb⟩
    · obtain ⟨l, hl, hql⟩ := h
      rw [hql] at hr ⊢
      rcases List.mem_append.1 hr with h1 | h1
      · obtain ⟨rp, hrp, hrpb⟩ :=
          hwf.prevClosed (stg, l) (cacheLookup_some_mem cache stg l hl) r h1 b hb
        exact ⟨rp, lookupD_append_mono cache stg rec _ rp hrp, hrpb⟩
      · rw [List.mem_singleton] at h1
        rw [h1] at hb
        obtain ⟨_, rp, hrp, hrpb⟩ := hprev b hb
        exact ⟨rp, lookupD_append_mono cache stg rec _ rp hrp, hrpb⟩
    · rw [h.2] at hr ⊢
      rw [List.mem_singleton] at hr
      rw [hr] at hb
      obtain ⟨_, rp, hrp, hrpb⟩ := hprev b hb
      exact ⟨rp, lookupD_append_mono cache stg rec _ rp hrp, hrpb⟩
  · intro q hq hq1 r hr
    rcases mem_cacheAppend cache stg rec q hq with h | h | h
    · exact hwf.depth1Prev q h hq1 r hr
    · obtain ⟨l, hl, hql⟩ := h
      rw [hql] at hr hq1
      rcases List.mem_append.1 hr with h1 | h1
      · exact hwf.depth1Prev (stg, l) (cacheLookup_some_mem cache stg l hl) hq1 r h1
      · rw [List.mem_singleton] at h1
        rw [h1]
        exact hd1 hq1
    · rw [h.2] at hr hq1
      rw [List.mem_singleton] at hr
      rw [hr]
      exact hd1 hq1

theorem evalSubmission_wf (modelOf : Nat → Nat) (predOf : Nat → List ℚ) (k : Nat)
    (cache : Cache) (s : Submission) (c' : Cache) (hwf : CacheWF cache)
    (hsh : SubShaped s) (h : evalSubmission modelOf predOf k cache s = some c') :
    CacheWF c' := by
  cases s with
  | l1 stg ocand =>
      cases ocand with
      | none => simp [evalSubmission] at h
      | some cand =>
          simp only [evalSubmission, Option.some.injEq] at h
          rw [← h]
          refine cacheAppend_wf cache stg _ hwf ?_ ?_
          · intro b hb
            simp at hb
          · intro _
            rfl
  | l2 ps opc stg cand =>
      cases opc with
      | none => simp [evalSubmission] at h
      | some pc =>
          simp only [evalSubmission] at h
          cases hfl : ((cacheLookup cache ps).getD []).filter
              (fun r => r.stage_bl == pc) with
          | nil => rw [hfl] at h; simp at h
          | cons x xs =>
              rw [hfl] at h
              dsimp only at h
              injection h with h2
              rw [← h2]
              obtain ⟨hlen2, hps⟩ := hsh
              refine cacheAppend_wf cache stg _ hwf ?_ ?_
              · intro b hb
                injection hb with hb2
                refine ⟨hlen2, x, ?_, ?_⟩
                · rw [← hps]
                  have : x ∈ ((cacheLookup cache ps).getD []).filter
                      (fun r => r.stage_bl == pc) := by
                    rw [hfl]; exact List.mem_cons_self _ _
                  exact (List.mem_filter.1 this).1
                · have : x ∈ ((cacheLookup cache ps).getD []).filter
                      (fun r => r.stage_bl == pc) := by
                    rw [hfl]; exact List.mem_cons_self _ _
                  have := (List.mem_filter.1 this).2
                  rw [← hb2]
                  exact beq_iff_eq.1 this
              · intro h1
                rw [hlen2] at h1
                exact absurd h1 (by decide)

theorem runFitAux_wf (modelOf : Nat → Nat) (predOf : Nat → List ℚ)
    (timer : Nat → Bool) :
    ∀ (subs : List Submission) (k0 : Nat) (cache : Cache), CacheWF cache →
    (∀ s ∈ subs, SubShaped s) → ∀ c' n,
    runFitAux modelOf predOf timer k0 cache subs = (some c', n) → CacheWF c' := by
  intro subs
  induction subs with
  | nil =>
      intro k0 cache hwf _ c' n h
      simp only [runFitAux, Prod.mk.injEq] at h
      injection h.1 with h2
      rw [← h2]
      exact hwf
  | cons s rest ih =>
      intro k0 cache hwf hsh c' n h
      rw [runFitAux] at h
      cases he : evalSubmission modelOf predOf k0 cache s with
      | none => rw [he] at h; simp at h
      | some c1 =>
          rw [he] at h
          dsimp only at h
          have hwf1 := evalSubmission_wf modelOf predOf k0 cache s c1 hwf
            (hsh s (List.mem_cons_self _ _)) he
          by_cases ht : timer k0 = true
          · rw [if_pos ht] at h
            injection h with h1 h2
            injection h1 with h3
            rw [← h3]
            exact hwf1
          · rw [if_neg ht] at h
            exact ih (k0 + 1) c1 hwf1 (fun x hx => hsh x (List.mem_cons_of_mem _ hx))
              c' n h

/-! ## Budget-stop behaviour of the training loop -/

theorem runFitAux_stop (modelOf : Nat → Nat) (predOf : Nat → List ℚ)
    (timer : Nat → Bool) (k : Nat) (hk : timer k = true)
    (hmin : ∀ j, j < k → timer j = false) :
    ∀ (subs : List Submission) (k0 : Nat) (cache : Cache), k0 ≤ k →
    runFitAux modelOf predOf timer k0 cache subs =
      runFitAux modelOf predOf timer k0 cache (subs.take (k + 1 - k0)) := by
  intro subs
  induction subs with
  | nil => intro k0 cache _; rw [List.take_nil]
  | cons s rest ih =>
      intro k0 cache hle
      have hpos : k + 1 - k0 = (k - k0) + 1 := by omega
      rw [hpos, List.take_succ_cons, runFitAux, runFitAux]
      cases he : evalSubmission modelOf predOf k0 cache s with
      | none => rfl
      | some c1 =>
          dsimp only
          by_cases heq : k0 = k
          · have htk : timer k0 = true := by rw [heq]; exact hk
            rw [if_pos htk, if_pos htk]
          · have hlt : k0 < k := lt_of_le_of_ne hle heq
            have hnot : ¬timer k0 = true := by
              rw [hmin k0 hlt]; exact Bool.false_ne_true
            rw [if_neg hnot, if_neg hnot]
            have hidx : k - k0 = k + 1 - (k0 + 1) := by omega
            rw [hidx]
            exact ih (k0 + 1) c1 (by omega)

theorem runFitAux_count (modelOf : Nat → Nat) (predOf : Nat → List ℚ)
    (timer : Nat → Bool) (k : Nat) (hk : timer k = true)
    (hmin : ∀ j, j < k → timer j = false) :
    ∀ (subs : List Submission) (k0 : Nat) (cache : Cache), k0 ≤ k →
    ∀ c' n, runFitAux modelOf predOf timer k0 cache subs = (some c', n) →
    n = min (k + 1) (k0 + subs.length) := by
  intro subs
  induction subs with
  | nil =>
      intro k0 cache hle c' n h
      simp only [runFitAux, Prod.mk.injEq] at h
      rw [← h.2, List.length_nil]
      omega
  | cons s rest ih =>
      intro k0 cache hle c' n h
      rw [runFitAux] at h
      cases he : evalSubmission modelOf predOf k0 cache s with
      | none => rw [he] at h; simp at h
      | some c1 =>
          rw [he] at h
          dsimp only at h
          by_cases heq : k0 = k
          · rw [if_pos (heq ▸ hk)] at h
            injection h with h1 h2
            rw [← h2, List.length_cons, heq]
            omega
          · have hlt : k0 < k := lt_of_le_of_ne hle heq
            rw [if_neg (by rw [hmin k0 hlt]; exact Bool.false_ne_true)] at h
            have := ih (k0 + 1) c1 (by omega) c' n h
            rw [this, List.length_cons]
            omega

/-! ## Every assembled metalearner can predict -/

theorem comboAssign_predict_isSome
    (setBls : List (MLStageFullName × TrainedStageBaseLearner))
    (mlName : String) (mlBls : List (MLStageFullName × TrainedStageBaseLearner))
    (h : (mlName, mlBls) ∈ comboAssign setBls) :
    (metalearner_predict mlName mlBls).isSome := by
  obtain ⟨ms, hms, hsome⟩ := List.mem_filterMap.1 h
  by_cases hlen : (comboAssignMl ms.2 setBls).length = ms.2.length
  · rw [if_pos hlen] at hsome
    simp only [Option.some.injEq, Prod.mk.injEq] at hsome
    obtain ⟨hname, hbls⟩ := hsome
    simp only [MAP_META_TO_STAGES, List.mem_cons, List.not_mem_nil, or_false] at hms
    rcases hms with hms | hms
    · subst hms
      have hall := filterMap_length_eq_forall_isSome _ hlen
      obtain ⟨v1, hf1⟩ := Option.isSome_iff_exists.1
        (hall _ (by exact List.mem_cons_self _ _))
      obtain ⟨v2, hf2⟩ := Option.isSome_iff_exists.1
        (hall (MetaLearnerStage.mk "outcome_treatment" none)
          (by exact List.mem_cons_of_mem _ (List.mem_cons_self _ _)))
      have hml : comboAssignMl
          [MetaLearnerStage.mk "outcome_control" none,
           MetaLearnerStage.mk "outcome_treatment" none] setBls = [v1, v2] := by
        simp only [comboAssignMl, List.filterMap_cons, hf1, hf2, List.filterMap_nil]
      have hv1 : v1.1 = ["outcome_control"] := (comboAssignStage_fst setBls _ v1 hf1).1
      have hv2 : v2.1 = ["outcome_treatment"] := (comboAssignStage_fst setBls _ v2 hf2).1
      rw [← hbls, ← hname, hml]
      have h1 : comboLookup [v1, v2] ["outcome_control"] = some v1.2 := by
        rw [comboLookup, if_pos hv1]
      have h2 : comboLookup [v1, v2] ["outcome_treatment"] = some v2.2 := by
        rw [comboLookup, if_neg (by rw [hv1]; decide), comboLookup, if_pos hv2]
      rw [metalearner_predict, if_pos rfl, h1, h2]
      rfl
    · subst hms
      have hall := filterMap_length_eq_forall_isSome _ hlen
      obtain ⟨v1, hf1⟩ := Option.isSome_iff_exists.1
        (hall (MetaLearnerStage.mk "outcome_control" none)
          (by exact List.mem_cons_self _ _))
      obtain ⟨v2, hf2⟩ := Option.isSome_iff_exists.1
        (hall (MetaLearnerStage.mk "outcome_treatment" none)
          (by exact List.mem_cons_of_mem _ (List.mem_cons_self _ _)))
      obtain ⟨v3, hf3⟩ := Option.isSome_iff_exists.1
        (hall (MetaLearnerStage.mk "propensity" none)
          (by exact List.mem_cons_of_mem _ (List.mem_cons_of_mem _
            (List.mem_cons_self _ _))))
      obtain ⟨v4, hf4⟩ := Option.isSome_iff_exists.1
        (hall (MetaLearnerStage.mk "effect_control"
            (some (MetaLearnerStage.mk "outcome_treatment" none)))
          (by exact List.mem_cons_of_mem _ (List.mem_cons_of_mem _
            (List.mem_cons_of_mem _ (List.mem_cons_self _ _)))))
      obtain ⟨v5, hf5⟩ := Option.isSome_iff_exists.1
        (hall (MetaLearnerStage.mk "effect_treatment"
            (some (MetaLearnerStage.mk "outcome_control" none)))
          (by exact List.mem_cons_of_mem _ (List.mem_cons_of_mem _
            (List.mem_cons_of_mem _ (List.mem_cons_of_mem _
              (List.mem_cons_self _ _))))))
      have hml : comboAssignMl
          [MetaLearnerStage.mk "outcome_control" none,
           MetaLearnerStage.mk "outcome_treatment" none,
           MetaLearnerStage.mk "propensity" none,
           MetaLearnerStage.mk "effect_control"
             (some (MetaLearnerStage.mk "outcome_treatment" none)),
           MetaLearnerStage.mk "effect_treatment"
             (some (MetaLearnerStage.mk "outcome_control" none))] setBls =
          [v1, v2, v3, v4, v5] := by
        simp only [comboAssignMl, List.filterMap_cons, hf1, hf2, hf3, hf4, hf5,
          List.filterMap_nil]
      have hv1 : v1.1 = ["outcome_control"] := (comboAssignStage_fst setBls _ v1 hf1).1
      have hv2 : v2.1 = ["outcome_treatment"] := (comboAssignStage_fst setBls _ v2 hf2).1
      have hv3 : v3.1 = ["propensity"] := (comboAssignStage_fst setBls _ v3 hf3).1
      have hv4 : v4.1 = ["outcome_treatment", "effect_control"] :=
        (comboAssignStage_fst setBls _ v4 hf4).1
      have hv5 : v5.1 = ["outcome_control", "effect_treatment"] :=
        (comboAssignStage_fst setBls _ v5 hf5).1
      rw [← hbls, ← hname, hml]
      have h4 : comboLookup [v1, v2, v3, v4, v5]
          ["outcome_treatment", "effect_control"] = some v4.2 := by
        rw [comboLookup, if_neg (by rw [hv1]; decide),
          comboLookup, if_neg (by rw [hv2]; decide),
          comboLookup, if_neg (by rw [hv3]; decide),
          comboLookup, if_pos hv4]
      have h5 : comboLookup [v1, v2, v3, v4, v5]
          ["outcome_control", "effect_treatment"] = some v5.2 := by
        rw [comboLookup, if_neg (by rw [hv1]; decide),
          comboLookup, if_neg (by rw [hv2]; decide),
          comboLookup, if_neg (by rw [hv3]; decide),
          comboLookup, if_neg (by rw [hv4]; decide),
          comboLookup, if_pos hv5]
      have h3 : comboLookup [v1, v2, v3, v4, v5] ["propensity"] = some v3.2 := by
        rw [comboLookup, if_neg (by rw [hv1]; decide),
          comboLookup, if_neg (by rw [hv2]; decide),
          comboLookup, if_pos hv3]
      rw [metalearner_predict, if_neg (by decide), if_pos rfl, h4, h5, h3]
      rfl
  · rw [if_neg hlen] at hsome
    simp at hsome

/-! ## A consistent combination exists for every ready metalearner -/

theorem filter_headD_mem (l : List α) (q : α → Bool) (d : α) (h : l ≠ []) :
    (l.filter q).headD (l.headD d) ∈ l := by
  cases hf : l.filter q with
  | nil => exact headD_mem _ _ h
  | cons x xs => exact List.mem_of_mem_filter (hf ▸ List.mem_cons_self x xs)

theorem chooseFor_mem (cache : Cache)
    (p : MLStageFullName × List TrainedStageBaseLearner) (h : p.2 ≠ []) :
    chooseFor cache p ∈ p.2 := by
  rw [chooseFor]
  split
  · exact headD_mem _ _ h
  · split
    · exact headD_mem _ _ h
    · exact filter_headD_mem _ _ _ h

theorem chooseFor_eff_ec (cache : Cache) (rs : List TrainedStageBaseLearner) :
    chooseFor cache (["outcome_treatment", "effect_control"], rs) =
      rs.headD dfltRecord := rfl

theorem chooseFor_eff_et (cache : Cache) (rs : List TrainedStageBaseLearner) :
    chooseFor cache (["outcome_control", "effect_treatment"], rs) =
      rs.headD dfltRecord := rfl

theorem chooseFor_ot_matches (cache : Cache) (hwf : CacheWF cache)
    (rs_ec rs_ot : List TrainedStageBaseLearner) (b : String)
    (h_ec : cacheLookup cache ["outcome_treatment", "effect_control"] = some rs_ec)
    (h_ot : cacheLookup cache ["outcome_treatment"] = some rs_ot)
    (hb : (rs_ec.headD dfltRecord).prev_stage_bl = some b) :
    (chooseFor cache (["outcome_treatment"], rs_ot)).stage_bl = b := by
  have hmem_ec := cacheLookup_some_mem cache _ rs_ec h_ec
  have hne_ec := hwf.entriesNonempty _ hmem_ec
  obtain ⟨rp, hrp, hrpb⟩ := hwf.prevClosed _ hmem_ec (rs_ec.headD dfltRecord)
    (headD_mem _ _ hne_ec) b hb
  rw [show (["outcome_treatment", "effect_control"] : MLStageFullName).take 1 =
    ["outcome_treatment"] from rfl, h_ot, Option.getD_some] at hrp
  have hq : (fun r : TrainedStageBaseLearner => decide (r.stage_bl = b)) rp = true := by
    simp [hrpb]
  have := headD_filter_prop (fun r : TrainedStageBaseLearner => decide (r.stage_bl = b))
    rs_ot (rs_ot.headD dfltRecord) rp hrp hq
  have hres : chooseFor cache (["outcome_treatment"], rs_ot) =
      (rs_ot.filter (fun r => r.stage_bl = b)).headD (rs_ot.headD dfltRecord) := by
    rw [chooseFor]
    dsimp only
    rw [if_pos rfl]
    dsimp only
    rw [h_ec, Option.getD_some, hb]
  rw [hres]
  exact of_decide_eq_true this.1

theorem chooseFor_oc_matches (cache : Cache) (hwf : CacheWF cache)
    (rs_et rs_oc : List TrainedStageBaseLearner) (b : String)
    (h_et : cacheLookup cache ["outcome_control", "effect_treatment"] = some rs_et)
    (h_oc : cacheLookup cache ["outcome_control"] = some rs_oc)
    (hb : (rs_et.headD dfltRecord).prev_stage_bl = some b) :
    (chooseFor cache (["outcome_control"], rs_oc)).stage_bl = b := by
  have hmem_et := cacheLookup_some_mem cache _ rs_et h_et
  have hne_et := hwf.entriesNonempty _ hmem_et
  obtain ⟨rp, hrp, hrpb⟩ := hwf.prevClosed _ hmem_et (rs_et.headD dfltRecord)
    (headD_mem _ _ hne_et) b hb
  rw [show (["outcome_control", "effect_treatment"] : MLStageFullName).take 1 =
    ["outcome_control"] from rfl, h_oc, Option.getD_some] at hrp
  have hq : (fun r : TrainedStageBaseLearner => decide (r.stage_bl = b)) rp = true := by
    simp [hrpb]
  have := headD_filter_prop (fun r : TrainedStageBaseLearner => decide (r.stage_bl = b))
    rs_oc (rs_oc.headD dfltRecord) rp hrp hq
  have hres : chooseFor cache (["outcome_control"], rs_oc) =
      (rs_oc.filter (fun r => r.stage_bl = b)).headD (rs_oc.headD dfltRecord) := by
    rw [chooseFor]
    dsimp only
    rw [if_neg (by decide), if_pos rfl]
    dsimp only
    rw [h_et, Option.getD_some, hb]
  rw [hres]
  exact of_decide_eq_true this.1

theorem chooseFor_depth1_prev_none (cache : Cache) (hwf : CacheWF cache)
    (fn : MLStageFullName) (rs : List TrainedStageBaseLearner)
    (h : cacheLookup cache fn = some rs) (hlen : fn.length = 1) :
    (chooseFor cache (fn, rs)).prev_stage_bl = none := by
  have hmem := cacheLookup_some_mem cache fn rs h
  exact hwf.depth1Prev (fn, rs) hmem hlen _
    (chooseFor_mem cache (fn, rs) (hwf.entriesNonempty _ hmem))

theorem filterMap_length_of_all_isSome {f : α → Option β} :
    ∀ l : List α, (∀ a ∈ l, (f a).isSome = true) →
    (l.filterMap f).length = l.length := by
  intro l
  induction l with
  | nil => intro _; rfl
  | cons x xs ih =>
      intro h
      obtain ⟨b, hb⟩ := Option.isSome_iff_exists.1 (h x (List.mem_cons_self _ _))
      rw [List.filterMap_cons, hb]
      simp only [List.length_cons]
      rw [ih (fun a ha => h a (List.mem_cons_of_mem _ ha))]

theorem ready_assigns (cache : Cache) (hwf : CacheWF cache)
    (ms : String × List MetaLearnerStage) (hms : ms ∈ MAP_META_TO_STAGES)
    (hready : ∀ st ∈ ms.2, (cacheLookup cache st.full_name).isSome = true) :
    (ms.1, comboAssignMl ms.2 (setBlsOf cache)) ∈ comboAssign (setBlsOf cache) := by
  refine List.mem_filterMap.2 ⟨ms, hms, ?_⟩
  suffices hlen : (comboAssignMl ms.2 (setBlsOf cache)).length = ms.2.length by
    rw [if_pos hlen]
  refine filterMap_length_of_all_isSome ms.2 ?_
  have hd1 : ∀ fn : MLStageFullName, fn.length = 1 →
      (cacheLookup cache fn).isSome = true →
      ∀ st : MetaLearnerStage, st.full_name = fn →
      (comboAssignStage (setBlsOf cache) st).isSome = true := by
    intro fn hfn hsome st hst
    obtain ⟨rs, hrs⟩ := Option.isSome_iff_exists.1 hsome
    have hlk : comboLookup (setBlsOf cache) fn = some (chooseFor cache (fn, rs)) := by
      rw [setBlsOf]
      exact comboLookup_zip_map (chooseFor cache) cache fn rs hrs
    have hprev := chooseFor_depth1_prev_none cache hwf fn rs hrs hfn
    rw [comboAssignStage]
    rw [hst, hlk]
    dsimp only
    rw [hprev]
    rfl
  intro st hst
  simp only [MAP_META_TO_STAGES, List.mem_cons, List.not_mem_nil, or_false] at hms
  rcases hms with hmst | hmsx
  · rw [hmst] at hready hst
    simp only [List.mem_cons, List.not_mem_nil, or_false] at hst
    rcases hst with rfl | rfl
    · exact hd1 ["outcome_control"] rfl
        (hready (MetaLearnerStage.mk "outcome_control" none)
          (by exact List.mem_cons_self _ _)) _ rfl
    · exact hd1 ["outcome_treatment"] rfl
        (hready (MetaLearnerStage.mk "outcome_treatment" none)
          (by exact List.mem_cons_of_mem _ (List.mem_cons_self _ _))) _ rfl
  · rw [hmsx] at hready hst
    have h_oc : (cacheLookup cache ["outcome_control"]).isSome = true :=
      hready (MetaLearnerStage.mk "outcome_control" none)
        (by exact List.mem_cons_self _ _)
    have h_ot : (cacheLookup cache ["outcome_treatment"]).isSome = true :=
      hready (MetaLearnerStage.mk "outcome_treatment" none)
        (by exact List.mem_cons_of_mem _ (List.mem_cons_self _ _))
    have h_pr : (cacheLookup cache ["propensity"]).isSome = true :=
      hready (MetaLearnerStage.mk "propensity" none)
        (by exact List.mem_cons_of_mem _ (List.mem_cons_of_mem _
          (List.mem_cons_self _ _)))
    have h_ec : (cacheLookup cache
        ["outcome_treatment", "effect_control"]).isSome = true :=
      hready (MetaLearnerStage.mk "effect_control"
          (some (MetaLearnerStage.mk "outcome_treatment" none)))
        (by exact List.mem_cons_of_mem _ (List.mem_cons_of_mem _
          (List.mem_cons_of_mem _ (List.mem_cons_self _ _))))
    have h_et : (cacheLookup cache
        ["outcome_control", "effect_treatment"]).isSome = true :=
      hready (MetaLearnerStage.mk "effect_treatment"
          (some (MetaLearnerStage.mk "outcome_control" none)))
        (by exact List.mem_cons_of_mem _ (List.mem_cons_of_mem _
          (List.mem_cons_of_mem _ (List.mem_cons_of_mem _ (List.mem_cons_self _ _)))))
    obtain ⟨rs_oc, hrs_oc⟩ := Option.isSome_iff_exists.1 h_oc
    obtain ⟨rs_ot, hrs_ot⟩ := Option.isSome_iff_exists.1 h_ot
    obtain ⟨rs_ec, hrs_ec⟩ := Option.isSome_iff_exists.1 h_ec
    obtain ⟨rs_et, hrs_et⟩ := Option.isSome_iff_exists.1 h_et
    have hlk_oc : comboLookup (setBlsOf cache) ["outcome_control"] =
        some (chooseFor cache (["outcome_control"], rs_oc)) := by
      rw [setBlsOf]
      exact comboLookup_zip_map (chooseFor cache) cache _ rs_oc hrs_oc
    have hlk_ot : comboLookup (setBlsOf cache) ["outcome_treatment"] =
        some (chooseFor cache (["outcome_treatment"], rs_ot)) := by
      rw [setBlsOf]
      exact comboLookup_zip_map (chooseFor cache) cache _ rs_ot hrs_ot
    have hlk_ec : comboLookup (setBlsOf cache)
        ["outcome_treatment", "effect_control"] =
        some (chooseFor cache (["outcome_treatment", "effect_control"], rs_ec)) := by
      rw [setBlsOf]
      exact comboLookup_zip_map (chooseFor cache) cache _ rs_ec hrs_ec
    have hlk_et : comboLookup (setBlsOf cache)
        ["outcome_control", "effect_treatment"] =
        some (chooseFor cache (["outcome_control", "effect_treatment"], rs_et)) := by
      rw [setBlsOf]
      exact comboLookup_zip_map (chooseFor cache) cache _ rs_et hrs_et
    simp only [List.mem_cons, List.not_mem_nil, or_false] at hst
    rcases hst with rfl | rfl | rfl | rfl | rfl
    · exact hd1 ["outcome_control"] rfl h_oc _ rfl
    · exact hd1 ["outcome_treatment"] rfl h_ot _ rfl
    · exact hd1 ["propensity"] rfl h_pr _ rfl
    · rw [comboAssignStage]
      rw [show (MetaLearnerStage.mk "effect_control"
          (some (MetaLearnerStage.mk "outcome_treatment" none))).full_name =
        ["outcome_treatment", "effect_control"] from rfl, hlk_ec]
      dsimp only
      cases hprev : (chooseFor cache
          (["outcome_treatment", "effect_control"], rs_ec)).prev_stage_bl with
      | none => rfl
      | some b =>
          have hb : (rs_ec.headD dfltRecord).prev_stage_bl = some b := by
            rw [← chooseFor_eff_ec cache rs_ec]
            exact hprev
          have hmatch := chooseFor_ot_matches cache hwf rs_ec rs_ot b hrs_ec hrs_ot hb
          rw [show (["outcome_treatment", "effect_control"] :
              MLStageFullName).take 1 = ["outcome_treatment"] from rfl, hlk_ot]
          dsimp only
          rw [if_pos hmatch]
          rfl
    · rw [comboAssignStage]
      rw [show (MetaLearnerStage.mk "effect_treatment"
          (some (MetaLearnerStage.mk "outcome_control" none))).full_name =
        ["outcome_control", "effect_treatment"] from rfl, hlk_et]
      dsimp only
      cases hprev : (chooseFor cache
          (["outcome_control", "effect_treatment"], rs_et)).prev_stage_bl with
      | none => rfl
      | some b =>
          have hb : (rs_et.headD dfltRecord).prev_stage_bl = some b := by
            rw [← chooseFor_eff_et cache rs_et]
            exact hprev
          have hmatch := chooseFor_oc_matches cache hwf rs_et rs_oc b hrs_et hrs_oc hb
          rw [show (["outcome_control", "effect_treatment"] :
              MLStageFullName).take 1 = ["outcome_control"] from rfl, hlk_oc]
          dsimp only
          rw [if_pos hmatch]
          rfl

/-! ## Scoring succeeds and produces a nonempty table -/

theorem inner_fold_some (metric : List ℚ → ℚ) :
    ∀ (set : List (String × List (MLStageFullName × TrainedStageBaseLearner)))
      (tbl : List (TrainedMetaLearnerFullName × ℚ)),
    (∀ mlsb ∈ set, (metalearner_predict mlsb.1 mlsb.2).isSome = true) →
    ∃ tbl', set.foldlM (scoreStep metric) tbl = some tbl' ∧
      (tbl' = [] → tbl = [] ∧ set = []) := by
  intro set
  induction set with
  | nil =>
      intro tbl _
      exact ⟨tbl, rfl, fun h => ⟨h, rfl⟩⟩
  | cons m rest ih =>
      intro tbl hall
      obtain ⟨up, hup⟩ := Option.isSome_iff_exists.1
        (hall m (List.mem_cons_self _ _))
      have hstep : scoreStep metric tbl m =
          some (dictInsert tbl
            (m.1, sortSbls (m.2.map (fun p => (p.1, p.2.stage_bl))))
            (metric up)) := by
        rw [scoreStep, hup]
      rw [List.foldlM_cons, hstep]
      obtain ⟨tbl', htbl', hne⟩ :=
        ih (dictInsert tbl
            (m.1, sortSbls (m.2.map (fun p => (p.1, p.2.stage_bl))))
            (metric up))
          (fun x hx => hall x (List.mem_cons_of_mem _ hx))
      refine ⟨tbl', ?_, ?_⟩
      · simpa using htbl'
      · intro h
        exact absurd (hne h).1 (dictInsert_ne_nil _ _ _)

theorem outer_fold_some (metric : List ℚ → ℚ) :
    ∀ (sets : List (List (String × List (MLStageFullName × TrainedStageBaseLearner))))
      (tbl : List (TrainedMetaLearnerFullName × ℚ)),
    (∀ set ∈ sets, ∀ mlsb ∈ set, (metalearner_predict mlsb.1 mlsb.2).isSome = true) →
    ∃ tbl', sets.foldlM (fun tbl st => st.foldlM (scoreStep metric) tbl) tbl =
        some tbl' ∧
      ((tbl ≠ [] ∨ ∃ set ∈ sets, set ≠ []) → tbl' ≠ []) := by
  intro sets
  induction sets with
  | nil =>
      intro tbl _
      refine ⟨tbl, rfl, ?_⟩
      rintro (h | ⟨set, hset, _⟩)
      · exact h
      · exact absurd hset (List.not_mem_nil set)
  | cons set rest ih =>
      intro tbl hall
      obtain ⟨tbl1, htbl1, hne1⟩ := inner_fold_some metric set tbl
        (hall set (List.mem_cons_self _ _))
      obtain ⟨tbl', htbl', hne'⟩ := ih tbl1
        (fun x hx => hall x (List.mem_cons_of_mem _ hx))
      refine ⟨tbl', ?_, ?_⟩
      · rw [List.foldlM_cons]
        simpa [htbl1] using htbl'
      · rintro (h | ⟨s, hs, hsne⟩)
        · refine hne' (Or.inl ?_)
          intro h1
          exact h (hne1 h1).1
        · rcases List.mem_cons.1 hs with h2 | h2
          · refine hne' (Or.inl ?_)
            intro h1
            rw [h2] at hsne
            exact hsne (hne1 h1).2
          · exact hne' (Or.inr ⟨s, h2, hsne⟩)

/-! ## C8: budget stop with assembly of partial results -/

/-- C8.  If the timer first reports the budget as exceeded after training
event `k`, the training loop evaluates exactly the first `k + 1`
submissions (its result only depends on that prefix, and the evaluated
count is `min (k+1) (number of submissions)`), and — provided at least one
metalearner has trained records for all of its required stages in the
cache trained so far — the pipeline still scores the assemblable
metalearners into a nonempty table and selects a best one. -/
theorem budget_stop_and_partial_assembly
    (modelOf : Nat → Nat) (predOf : Nat → List ℚ) (timer : Nat → Bool)
    (subs : List Submission) (metric : List ℚ → ℚ) (inc : Bool) (k : Nat)
    (hshape : ∀ s ∈ subs, SubShaped s)
    (hk : timer k = true) (hmin : ∀ j, j < k → timer j = false)
    (cache : Cache) (n : Nat)
    (hrun : runFit modelOf predOf timer subs = (some cache, n))
    (ms : String × List MetaLearnerStage) (hms : ms ∈ MAP_META_TO_STAGES)
    (hready : ∀ st ∈ ms.2, (cacheLookup cache st.full_name).isSome = true) :
    n = min (k + 1) subs.length ∧
    runFit modelOf predOf timer subs =
      runFit modelOf predOf timer (subs.take (k + 1)) ∧
    ∃ tbl, calculate_ml_metric metric cache = some tbl ∧ tbl ≠ [] ∧
      (set_best_metalearner inc tbl).isSome = true := by
  have hwf0 : CacheWF [] := by
    refine ⟨List.nodup_nil, ?_, ?_, ?_⟩ <;> intro p hp <;>
      exact absurd hp (List.not_mem_nil p)
  have hwf := runFitAux_wf modelOf predOf timer subs 0 [] hwf0 hshape cache n hrun
  refine ⟨?_, ?_, ?_⟩
  · have := runFitAux_count modelOf predOf timer k hk hmin subs 0 []
      (Nat.zero_le k) cache n hrun
    simpa using this
  · have := runFitAux_stop modelOf predOf timer k hk hmin subs 0 []
      (Nat.zero_le k)
    rw [runFit, runFit]
    simpa using this
  · have hready_any : MAP_META_TO_STAGES.any (fun m =>
        m.2.all (fun st => (cacheLookup cache st.full_name).isSome)) = true :=
      List.any_eq_true.2 ⟨ms, hms, List.all_eq_true.2 hready⟩
    have hbl : bl_for_ml cache =
        some ((listProd (cache.map Prod.snd)).map (fun combo =>
          comboAssign ((cache.map Prod.fst).zip combo))) := by
      rw [bl_for_ml, if_pos hready_any]
    have hcombo_mem : cache.map (chooseFor cache) ∈
        listProd (cache.map Prod.snd) :=
      mem_listProd _ _ (forall₂_map_mem cache (chooseFor cache)
        (fun p hp => chooseFor_mem cache p (hwf.entriesNonempty p hp)))
    have hset_mem : comboAssign (setBlsOf cache) ∈
        (listProd (cache.map Prod.snd)).map (fun combo =>
          comboAssign ((cache.map Prod.fst).zip combo)) :=
      List.mem_map.2 ⟨cache.map (chooseFor cache), hcombo_mem, rfl⟩
    have hmlmem := ready_assigns cache hwf ms hms hready
    have hset_ne : comboAssign (setBlsOf cache) ≠ [] :=
      List.ne_nil_of_mem hmlmem
    have hall : ∀ set ∈ (listProd (cache.map Prod.snd)).map (fun combo =>
        comboAssign ((cache.map Prod.fst).zip combo)),
        ∀ mlsb ∈ set, (metalearner_predict mlsb.1 mlsb.2).isSome = true := by
      intro set hsetm mlsb hm
      obtain ⟨combo, _, hc⟩ := List.mem_map.1 hsetm
      rw [← hc] at hm
      exact comboAssign_predict_isSome _ mlsb.1 mlsb.2 (by simpa using hm)
    obtain ⟨tbl, htbl, hne⟩ := outer_fold_some metric _ [] hall
    have hcalc : calculate_ml_metric metric cache = some tbl := by
      rw [calculate_ml_metric, hbl]
      exact htbl
    have htbl_ne : tbl ≠ [] :=
      hne (Or.inr ⟨comboAssign (setBlsOf cache), hset_mem, hset_ne⟩)
    refine ⟨tbl, hcalc, htbl_ne, ?_⟩
    cases tbl with
    | nil => exact absurd rfl htbl_ne
    | cons x xs =>
        rw [set_best_metalearner, List.foldl_cons]
        rw [show (match (none : Option (TrainedMetaLearnerFullName × ℚ)) with
            | none => some x
            | some bkv => if betterScore inc x.2 bkv.2 then some x else some bkv) =
          some x from rfl]
        rw [set_best_foldl_from_some inc xs x]
        rfl

/-- Witness for `budget_stop_and_partial_assembly`: three shaped level-1
submissions, timer crossing the budget after the second event; the first
two trained records make the TLearner assemblable. -/
theorem budget_stop_and_partial_assembly_witness :
    ∃ tbl, calculate_ml_metric (fun _ => 0)
        ((runFit id (fun _ => []) (fun j => j == 1)
          [Submission.l1 ["outcome_control"] (some "A"),
           Submission.l1 ["outcome_treatment"] (some "A"),
           Submission.l1 ["propensity"] (some "A")]).1.getD []) = some tbl ∧
      tbl ≠ [] ∧
      (set_best_metalearner true tbl).isSome = true := by
  have h := budget_stop_and_partial_assembly id (fun _ => []) (fun j => j == 1)
    [Submission.l1 ["outcome_control"] (some "A"),
     Submission.l1 ["outcome_treatment"] (some "A"),
     Submission.l1 ["propensity"] (some "A")]
    (fun _ => 0) true 1
    (by intro s hs
        simp only [List.mem_cons, List.not_mem_nil, or_false] at hs
        rcases hs with rfl | rfl | rfl <;> exact rfl)
    rfl
    (by intro j hj
        interval_cases j
        rfl)
    ((runFit id (fun _ => []) (fun j => j == 1)
      [Submission.l1 ["outcome_control"] (some "A"),
       Submission.l1 ["outcome_treatment"] (some "A"),
       Submission.l1 ["propensity"] (some "A")]).1.getD [])
    2 (by rfl)
    ("TLearner", [MetaLearnerStage.mk "outcome_control" none,
      MetaLearnerStage.mk "outcome_treatment" none])
    (by unfold MAP_META_TO_STAGES; exact List.mem_cons_self _ _)
    (by intro st hst
        simp only [List.mem_cons, List.not_mem_nil, or_false] at hst
        rcases hst with rfl | rfl <;> rfl)
  exact h.2.2

/-! ## Positional list lemmas for the pool -/

theorem set_get_self : ∀ (l : List α) (n : Nat) (a : α),
    l.get? n = some a → l.set n a = l := by
  intro l
  induction l with
  | nil => intro n a h; simp at h
  | cons x xs ih =>
      intro n a h
      cases n with
      | zero =>
          simp only [List.get?] at h
          injection h with h2
          rw [List.set, h2]
      | succ m =>
          simp only [List.get?] at h
          rw [List.set, ih m a h]

theorem mem_set_cases : ∀ (l : List α) (i : Nat) (a x : α),
    x ∈ l.set i a → x = a ∨ ∃ j, j ≠ i ∧ l.get? j = some x := by
  intro l
  induction l with
  | nil => intro i a x h; simp at h
  | cons b bs ih =>
      intro i a x h
      cases i with
      | zero =>
          rw [List.set] at h
          rcases List.mem_cons.1 h with h1 | h1
          · exact Or.inl h1
          · obtain ⟨n, hn⟩ := List.mem_iff_get?.1 h1
            exact Or.inr ⟨n + 1, Nat.succ_ne_zero n, hn⟩
      | succ m =>
          rw [List.set] at h
          rcases List.mem_cons.1 h with h1 | h1
          · exact Or.inr ⟨0, (Nat.succ_ne_zero m).symm, by rw [List.get?, h1]⟩
          · rcases ih m a x h1 with h2 | ⟨j, hj, hjg⟩
            · exact Or.inl h2
            · exact Or.inr ⟨j + 1, fun hc => hj (Nat.succ_injective hc), hjg⟩

/-- Shorthand for the pool-key pairwise property of `SchedInv`. -/
theorem pool_other_key_ne (pool : List PoolEntry)
    (hk : (pool.map entryKey).Pairwise (fun a b => a.2.isSome = true → a ≠ b))
    (i : Nat) (e : PoolEntry) (hg : pool.get? i = some e) (b : String)
    (hb : e.bl1 = some b) (e2 : PoolEntry) (j : Nat) (hj : j ≠ i)
    (hg2 : pool.get? j = some e2) :
    ¬(e2.l2name = e.l2name ∧ e2.bl1 = some b) := by
  rintro ⟨h1, h2⟩
  have hkey : entryKey e2 = entryKey e := by
    rw [entryKey, entryKey, h1, h2, hb]
  have hgi : (pool.map entryKey).get? i = some (entryKey e) := by
    rw [List.get?_map, hg]; rfl
  have hgj : (pool.map entryKey).get? j = some (entryKey e2) := by
    rw [List.get?_map, hg2]; rfl
  have hpw := List.pairwise_iff_get.1 hk
  obtain ⟨hi, hig⟩ := List.get?_eq_some.1 hgi
  obtain ⟨hjlt, hjg⟩ := List.get?_eq_some.1 hgj
  rcases Nat.lt_trichotomy i j with hij | hij | hij
  · have := hpw ⟨i, hi⟩ ⟨j, hjlt⟩ hij
    rw [hig, hjg] at this
    exact this (by rw [entryKey, hb]; rfl) hkey.symm
  · exact hj hij.symm
  · have := hpw ⟨j, hjlt⟩ ⟨i, hi⟩ hij
    rw [hig, hjg] at this
    exact this (by rw [entryKey, h2]; rfl) hkey

/-! ## Scheduler invariant: single steps -/

theorem inv_erase (done : List (MLStageFullName × Option String))
    (out : List Submission) (pool : List PoolEntry) (i : Nat)
    (h : SchedInv done out pool) : SchedInv done out (pool.eraseIdx i) := by
  refine ⟨h.distinct, h.l1map, h.provOut, ?_, ?_⟩
  · intro e he
    exact h.poolOk e ((List.eraseIdx_sublist pool i).subset he)
  · exact List.Pairwise.sublist ((List.eraseIdx_sublist pool i).map entryKey) h.poolKeys

theorem inv_advance (done : List (MLStageFullName × Option String))
    (out : List Submission) (pool : List PoolEntry) (i : Nat)
    (e : PoolEntry) (hg : pool.get? i = some e) (c : String)
    (rest : List String) (hr : e.rem = c :: rest)
    (h : SchedInv done out pool) :
    SchedInv done
      (out ++ [Submission.l2 (e.l2name.take 1) e.bl1 e.l2name c])
      (pool.set i ⟨e.l2name, e.bl1, rest⟩) := by
  have hpe := h.poolOk e (List.get?_mem hg)
  refine ⟨?_, ?_, ?_, ?_, ?_⟩
  · rw [List.filter_append]
    cases hb : e.bl1 with
    | none =>
        have hf : List.filter Submission.proper
            [Submission.l2 (e.l2name.take 1) none e.l2name c] = [] := by
          simp [List.filter, Submission.proper]
        rw [hf, List.append_nil]
        exact h.distinct
    | some b =>
        have hf : List.filter Submission.proper
            [Submission.l2 (e.l2name.take 1) (some b) e.l2name c] =
            [Submission.l2 (e.l2name.take 1) (some b) e.l2name c] := by
          simp [List.filter, Submission.proper]
        rw [hf]
        refine List.pairwise_append.2 ⟨h.distinct, List.pairwise_singleton _ _, ?_⟩
        intro x hx y hy
        rw [List.mem_singleton] at hy
        subst hy
        have hx' := List.mem_filter.1 hx
        have hok := hpe.2 b hb
        have hne := hok.2 c (by rw [hr]; exact List.mem_cons_self c rest) x hx'.1 hx'.2
        have hsubid : (Submission.l2 (e.l2name.take 1) (some b) e.l2name c).ident =
            (e.l2name, c, some b) := rfl
        intro hxe
        exact hne (hxe.trans hsubid)
  · rw [List.filterMap_append]
    have hf : List.filterMap Submission.toL1
        [Submission.l2 (e.l2name.take 1) e.bl1 e.l2name c] = [] := rfl
    rw [hf, List.append_nil]
    exact h.l1map
  · intro ps pc stg c' hmem b hpc
    rcases List.mem_append.1 hmem with hm | hm
    · exact h.provOut ps pc stg c' hm b hpc
    · rw [List.mem_singleton] at hm
      injection hm with h1 h2 h3 h4
      subst h3
      exact (hpe.2 b (h2.symm.trans hpc)).1
  · intro e2 he2
    rcases mem_set_cases pool i ⟨e.l2name, e.bl1, rest⟩ e2 he2 with he2' | ⟨j, hj, hjg⟩
    · subst he2'
      have hnd : (c :: rest).Nodup := hr ▸ hpe.1
      refine ⟨(List.nodup_cons.1 hnd).2, ?_⟩
      intro b hb
      have hb' : e.bl1 = some b := hb
      have hok := hpe.2 b hb'
      refine ⟨hok.1, ?_⟩
      intro c' hc' s hs hps
      rcases List.mem_append.1 hs with hm | hm
      · exact hok.2 c' (by rw [hr]; exact List.mem_cons_of_mem c hc') s hm hps
      · rw [List.mem_singleton] at hm
        subst hm
        intro hcontra
        have h1 : ((e.l2name : MLStageFullName), c, e.bl1) =
            ((e.l2name : MLStageFullName), c', some b) := hcontra
        have hcc : c = c' := congrArg (fun p => p.2.1) h1
        exact (List.nodup_cons.1 hnd).1 (by rw [hcc]; exact hc')
    · have hpe2 := h.poolOk e2 (List.get?_mem hjg)
      refine ⟨hpe2.1, ?_⟩
      intro b2 hb2
      have hok2 := hpe2.2 b2 hb2
      refine ⟨hok2.1, ?_⟩
      intro c' hc' s hs hps
      rcases List.mem_append.1 hs with hm | hm
      · exact hok2.2 c' hc' s hm hps
      · rw [List.mem_singleton] at hm
        subst hm
        intro hcontra
        have h1 : ((e.l2name : MLStageFullName), c, e.bl1) =
            (e2.l2name, c', some b2) := hcontra
        have hl : e.l2name = e2.l2name := congrArg (fun p => p.1) h1
        have hbl : e.bl1 = some b2 := congrArg (fun p => p.2.2) h1
        exact pool_other_key_ne pool h.poolKeys i e hg b2 hbl e2 j hj hjg
          ⟨hl.symm, hb2⟩
  · have hmap : (pool.set i (⟨e.l2name, e.bl1, rest⟩ : PoolEntry)).map entryKey =
        pool.map entryKey := by
      rw [List.map_set]
      exact set_get_self _ _ _ (by rw [List.get?_map, hg]; rfl)
    rw [hmap]
    exact h.poolKeys

theorem lookupCfg_nodup (cfg : List (MLStageFullName × List String))
    (hv : ∀ p ∈ cfg, p.2.Nodup) (k : MLStageFullName) :
    (lookupCfg cfg k).Nodup := by
  induction cfg with
  | nil => rw [lookupCfg]; exact List.nodup_nil
  | cons p ps ih =>
      rw [lookupCfg]
      split
      · exact hv p (List.mem_cons_self _ _)
      · exact ih (fun q hq => hv q (List.mem_cons_of_mem _ hq))

theorem inv_item (cfg : List (MLStageFullName × List String))
    (level2 : List MLStageFullName)
    (done : List (MLStageFullName × Option String))
    (out : List Submission) (pool : List PoolEntry)
    (s : MLStageFullName) (ob : Option String)
    (h : SchedInv done out pool)
    (hfresh : ∀ b, ob = some b → (s, some b) ∉ done)
    (hl2nd : level2.Nodup)
    (hremnd : ∀ l2, (lookupCfg cfg l2).Nodup) :
    SchedInv (done ++ [(s, ob)]) (out ++ [Submission.l1 s ob])
      (pool ++ newEntriesFor cfg level2 s ob) := by
  refine ⟨?_, ?_, ?_, ?_, ?_⟩
  · rw [List.filter_append]
    cases hb : ob with
    | none =>
        have hf : List.filter Submission.proper [Submission.l1 s none] = [] := by
          simp [List.filter, Submission.proper]
        rw [hf, List.append_nil]
        exact h.distinct
    | some cand =>
        have hf : List.filter Submission.proper [Submission.l1 s (some cand)] =
            [Submission.l1 s (some cand)] := by
          simp [List.filter, Submission.proper]
        rw [hf]
        refine List.pairwise_append.2 ⟨h.distinct, List.pairwise_singleton _ _, ?_⟩
        intro x hx y hy
        rw [List.mem_singleton] at hy
        subst hy
        have hx' := List.mem_filter.1 hx
        intro hxe
        cases x with
        | l1 s' c' =>
            have hc' : c'.isSome = true := hx'.2
            cases hcv : c' with
            | none => rw [hcv] at hc'; exact Bool.false_ne_true hc'
            | some c'' =>
                have hid : ((s' : MLStageFullName), c'.getD "", (none : Option String)) =
                    ((s : MLStageFullName), cand, (none : Option String)) := hxe
                have hs' : s' = s := congrArg (fun p => p.1) hid
                have hc2 : c'' = cand := by
                  have h2 := congrArg (fun p => p.2.1) hid
                  rw [hcv] at h2
                  exact h2
                have hdone : (s, some cand) ∈ done := by
                  rw [← h.l1map]
                  refine List.mem_filterMap.2 ⟨Submission.l1 s' c', hx'.1, ?_⟩
                  show some (s', c') = some (s, some cand)
                  rw [hs', hcv, hc2]
                exact hfresh cand hb hdone
        | l2 ps' pc' stg' c'' =>
            have hp : pc'.isSome = true := hx'.2
            have h3 : pc' = (none : Option String) := congrArg (fun p => p.2.2) hxe
            rw [h3] at hp
            exact Bool.false_ne_true hp
  · rw [List.filterMap_append, h.l1map]
    rfl
  · intro ps pc stg c hmem b hpc
    rcases List.mem_append.1 hmem with hm | hm
    · exact List.mem_append_left _ (h.provOut ps pc stg c hm b hpc)
    · rw [List.mem_singleton] at hm
      exact Submission.noConfusion hm
  · intro e2 he2
    rcases List.mem_append.1 he2 with hm | hm
    · have hpe2 := h.poolOk e2 hm
      refine ⟨hpe2.1, ?_⟩
      intro b2 hb2
      have hok2 := hpe2.2 b2 hb2
      refine ⟨List.mem_append_left _ hok2.1, ?_⟩
      intro c' hc' x hx hpx
      rcases List.mem_append.1 hx with hxm | hxm
      · exact hok2.2 c' hc' x hxm hpx
      · rw [List.mem_singleton] at hxm
        subst hxm
        intro hcontra
        have h3 : (none : Option String) = some b2 :=
          congrArg (fun p => p.2.2) hcontra
        exact Option.noConfusion h3
    · obtain ⟨l2, hl2f, hl2e⟩ := List.mem_map.1 hm
      have hl2fm := List.mem_filter.1 hl2f
      have htk : l2.take 1 = s := eq_of_beq hl2fm.2
      subst hl2e
      refine ⟨hremnd l2, ?_⟩
      intro b2 hb2
      have hob : ob = some b2 := hb2
      have hdone : ((l2.take 1 : MLStageFullName), some b2) ∈ done ++ [(s, ob)] := by
        rw [htk, hob]
        exact List.mem_append_right _ (List.mem_singleton.2 rfl)
      refine ⟨hdone, ?_⟩
      intro c' hc' x hx hpx
      rcases List.mem_append.1 hx with hxm | hxm
      · intro hcontra
        cases x with
        | l1 s' co =>
            have h3 : (none : Option String) = some b2 :=
              congrArg (fun p => p.2.2) hcontra
            exact Option.noConfusion h3
        | l2 ps' pc' stg' cx =>
            have h3 : pc' = some b2 := congrArg (fun p => p.2.2) hcontra
            have h1 : stg' = l2 := congrArg (fun p => p.1) hcontra
            have hdn := h.provOut ps' pc' stg' cx hxm b2 h3
            rw [h1, htk] at hdn
            exact hfresh b2 hob hdn
      · rw [List.mem_singleton] at hxm
        subst hxm
        intro hcontra
        have h3 : (none : Option String) = some b2 :=
          congrArg (fun p => p.2.2) hcontra
        exact Option.noConfusion h3
  · rw [List.map_append]
    refine List.pairwise_append.2 ⟨h.poolKeys, ?_, ?_⟩
    · rw [newEntriesFor, List.map_map]
      refine List.Pairwise.map _ ?_ (List.Nodup.filter _ hl2nd)
      intro a b hab _
      intro hp
      exact hab (congrArg (fun p => p.1) hp)
    · intro a ha b' hb' hsa
      obtain ⟨eOld, heOld, hka⟩ := List.mem_map.1 ha
      obtain ⟨en, hen, hkb⟩ := List.mem_map.1 hb'
      obtain ⟨l2, hl2f, hl2e⟩ := List.mem_map.1 hen
      have hl2fm := List.mem_filter.1 hl2f
      have htk : l2.take 1 = s := eq_of_beq hl2fm.2
      subst hl2e
      subst hka
      subst hkb
      cases hba : eOld.bl1 with
      | none =>
          rw [entryKey, hba] at hsa
          exact absurd hsa (by simp)
      | some ba =>
          intro hcontra
          have h1 : eOld.l2name = l2 := congrArg (fun p => p.1) hcontra
          have h2 : some ba = ob := by
            have := congrArg (fun p => p.2) hcontra
            rw [entryKey, hba] at this
            exact this
          have hdn := ((h.poolOk eOld heOld).2 ba hba).1
          rw [h1, htk] at hdn
          exact hfresh ba h2.symm hdn

theorem drainStep_inv (rng : Nat → Nat) (t : Nat)
    (done : List (MLStageFullName × Option String))
    (out : List Submission) (pool : List PoolEntry)
    (h : SchedInv done out pool) :
    SchedInv done (out ++ (drainStep rng t pool).1.toList)
      (drainStep rng t pool).2 := by
  cases hg : pool.get? (rng t % pool.length) with
  | none =>
      have hd2 : drainStep rng t pool = (none, pool) := by
        simp only [drainStep, hg]
      rw [hd2]
      simpa using h
  | some e =>
      cases hr : e.rem with
      | nil =>
          have hd2 : drainStep rng t pool =
              (none, pool.eraseIdx (rng t % pool.length)) := by
            simp only [drainStep, hg, hr]
          rw [hd2]
          simpa using inv_erase done out pool (rng t % pool.length) h
      | cons c rest =>
          have hd2 : drainStep rng t pool =
              (some (Submission.l2 (e.l2name.take 1) e.bl1 e.l2name c),
               pool.set (rng t % pool.length) ⟨e.l2name, e.bl1, rest⟩) := by
            simp only [drainStep, hg, hr]
          rw [hd2]
          simpa using inv_advance done out pool (rng t % pool.length) e hg c rest hr h

theorem drainK_inv (rng : Nat → Nat) :
    ∀ (j t : Nat) (done : List (MLStageFullName × Option String))
      (out : List Submission) (pool : List PoolEntry),
      SchedInv done out pool →
      SchedInv done (out ++ (drainK rng j t pool).1) (drainK rng j t pool).2.1 := by
  intro j
  induction j with
  | zero =>
      intro t done out pool h
      simpa [drainK] using h
  | succ m ih =>
      intro t done out pool h
      have h1 := drainStep_inv rng t done out pool h
      have h2 := ih (t + 1) done (out ++ (drainStep rng t pool).1.toList)
        (drainStep rng t pool).2 h1
      show SchedInv done
        (out ++ ((drainStep rng t pool).1.toList ++
          (drainK rng m (t + 1) (drainStep rng t pool).2).1))
        (drainK rng m (t + 1) (drainStep rng t pool).2).2.1
      rw [← List.append_assoc]
      exact h2

theorem drainAllF_succ (rng : Nat → Nat) (m t : Nat) (pool : List PoolEntry)
    (hne : pool ≠ []) :
    drainAllF rng (m + 1) t pool =
      (match pool.get? (rng t % pool.length) with
       | none => []
       | some e =>
         match e.rem with
         | [] => drainAllF rng m (t + 1) (pool.eraseIdx (rng t % pool.length))
         | c :: rest =>
             Submission.l2 (e.l2name.take 1) e.bl1 e.l2name c ::
               drainAllF rng m (t + 1)
                 (pool.set (rng t % pool.length) ⟨e.l2name, e.bl1, rest⟩)) := by
  cases pool with
  | nil => exact absurd rfl hne
  | cons p ps => rfl

theorem drainAllF_inv (rng : Nat → Nat) :
    ∀ (fuel t : Nat) (done : List (MLStageFullName × Option String))
      (out : List Submission) (pool : List PoolEntry),
      SchedInv done out pool →
      ∃ pool', SchedInv done (out ++ drainAllF rng fuel t pool) pool' := by
  intro fuel
  induction fuel with
  | zero =>
      intro t done out pool h
      exact ⟨pool, by simpa [drainAllF] using h⟩
  | succ m ih =>
      intro t done out pool h
      cases hp : pool with
      | nil =>
          rw [hp] at h
          exact ⟨[], by simpa [drainAllF] using h⟩
      | cons p ps =>
          rw [hp] at h
          cases hg : (p :: ps).get? (rng t % (p :: ps).length) with
          | none =>
              have hd2 : drainAllF rng (m + 1) t (p :: ps) = [] := by
                rw [drainAllF_succ rng m t (p :: ps) (List.cons_ne_nil p ps)]
                simp only [hg]
              rw [hd2]
              exact ⟨p :: ps, by simpa using h⟩
          | some e =>
              cases hr : e.rem with
              | nil =>
                  have hd2 : drainAllF rng (m + 1) t (p :: ps) =
                      drainAllF rng m (t + 1)
                        ((p :: ps).eraseIdx (rng t % (p :: ps).length)) := by
                    rw [drainAllF_succ rng m t (p :: ps) (List.cons_ne_nil p ps)]
                    simp only [hg, hr]
                  rw [hd2]
                  have h1 := inv_erase done out (p :: ps)
                    (rng t % (p :: ps).length) h
                  exact ih (t + 1) done out
                    ((p :: ps).eraseIdx (rng t % (p :: ps).length)) h1
              | cons c rest =>
                  have hd2 : drainAllF rng (m + 1) t (p :: ps) =
                      Submission.l2 (e.l2name.take 1) e.bl1 e.l2name c ::
                        drainAllF rng m (t + 1)
                          ((p :: ps).set (rng t % (p :: ps).length)
                            ⟨e.l2name, e.bl1, rest⟩) := by
                    rw [drainAllF_succ rng m t (p :: ps) (List.cons_ne_nil p ps)]
                    simp only [hg, hr]
                  rw [hd2]
                  have h1 := inv_advance done out (p :: ps)
                    (rng t % (p :: ps).length) e hg c rest hr h
                  obtain ⟨pool', hp'⟩ := ih (t + 1) done
                    (out ++ [Submission.l2 (e.l2name.take 1) e.bl1 e.l2name c])
                    ((p :: ps).set (rng t % (p :: ps).length)
                      ⟨e.l2name, e.bl1, rest⟩) h1
                  refine ⟨pool', ?_⟩
                  rw [List.append_cons out (Submission.l2 (e.l2name.take 1) e.bl1 e.l2name c)]
                  exact hp'

theorem procItems_inv (cfg : List (MLStageFullName × List String))
    (level2 : List MLStageFullName) (k : Nat) (rng : Nat → Nat)
    (hl2 : level2.Nodup) (hlk : ∀ l2, (lookupCfg cfg l2).Nodup) :
    ∀ (items : List (MLStageFullName × Option String)) (i t : Nat)
      (done : List (MLStageFullName × Option String))
      (out : List Submission) (pool : List PoolEntry),
      SchedInv done out pool →
      (∀ s b, (s, some b) ∈ items → ((s : MLStageFullName), some b) ∉ done) →
      (items.filter (fun p => p.2.isSome)).Pairwise (· ≠ ·) →
      ∃ done',
        SchedInv done' (out ++ (procItems cfg level2 k rng items i t pool).1)
          (procItems cfg level2 k rng items i t pool).2.1 := by
  intro items
  induction items with
  | nil =>
      intro i t done out pool h _ _
      exact ⟨done, by simpa [procItems] using h⟩
  | cons it rest ih =>
      obtain ⟨s, ob⟩ := it
      intro i t done out pool h hfresh hpw
      have h1 : SchedInv (done ++ [(s, ob)]) (out ++ [Submission.l1 s ob])
          (pool ++ newEntriesFor cfg level2 s ob) := by
        refine inv_item cfg level2 done out pool s ob h ?_ hl2 hlk
        intro b hb
        refine hfresh s b ?_
        rw [← hb]
        exact List.mem_cons_self _ _
      have hfresh' : ∀ s' b', ((s' : MLStageFullName), some b') ∈ rest →
          ((s' : MLStageFullName), some b') ∉ done ++ [(s, ob)] := by
        intro s' b' hm hmem
        rcases List.mem_append.1 hmem with hd | hd
        · exact hfresh s' b' (List.mem_cons_of_mem _ hm) hd
        · rw [List.mem_singleton] at hd
          have hob : ob = some b' := (congrArg Prod.snd hd).symm
          have hfe : (((s, ob) :: rest).filter (fun p => p.2.isSome)) =
              (s, ob) :: rest.filter (fun p => p.2.isSome) := by
            rw [List.filter_cons]
            rw [hob]
            simp
          rw [hfe] at hpw
          have hne := (List.pairwise_cons.1 hpw).1 (s', some b')
            (List.mem_filter.2 ⟨hm, rfl⟩)
          exact hne hd.symm
      have hpw' : (rest.filter (fun p => p.2.isSome)).Pairwise (· ≠ ·) :=
        List.Pairwise.sublist
          (List.Sublist.filter _ (List.sublist_cons_self (s, ob) rest)) hpw
      set pool1 := pool ++ newEntriesFor cfg level2 s ob with hpool1
      by_cases hc : k ≤ i ∧ pool1.length ≠ 0
      · have h2 := drainK_inv rng (min pool1.length 3) t (done ++ [(s, ob)])
          (out ++ [Submission.l1 s ob]) pool1 h1
        obtain ⟨done'', h3⟩ := ih (i + 1)
          (drainK rng (min pool1.length 3) t pool1).2.2 (done ++ [(s, ob)])
          ((out ++ [Submission.l1 s ob]) ++
            (drainK rng (min pool1.length 3) t pool1).1)
          (drainK rng (min pool1.length 3) t pool1).2.1 h2 hfresh' hpw'
        refine ⟨done'', ?_⟩
        have hstep : procItems cfg level2 k rng ((s, ob) :: rest) i t pool =
            (Submission.l1 s ob ::
              ((drainK rng (min pool1.length 3) t pool1).1 ++
                (procItems cfg level2 k rng rest (i + 1)
                  (drainK rng (min pool1.length 3) t pool1).2.2
                  (drainK rng (min pool1.length 3) t pool1).2.1).1),
             (procItems cfg level2 k rng rest (i + 1)
                  (drainK rng (min pool1.length 3) t pool1).2.2
                  (drainK rng (min pool1.length 3) t pool1).2.1).2.1,
             (procItems cfg level2 k rng rest (i + 1)
                  (drainK rng (min pool1.length 3) t pool1).2.2
                  (drainK rng (min pool1.length 3) t pool1).2.1).2.2) := by
          simp only [procItems]
          rw [← hpool1, if_pos hc]
        rw [hstep]
        rw [List.append_cons out (Submission.l1 s ob), ← List.append_assoc]
        exact h3
      · obtain ⟨done'', h3⟩ := ih (i + 1) t (done ++ [(s, ob)])
          ((out ++ [Submission.l1 s ob]) ++ []) pool1
          (by simpa using h1) hfresh' hpw'
        refine ⟨done'', ?_⟩
        have hstep : procItems cfg level2 k rng ((s, ob) :: rest) i t pool =
            (Submission.l1 s ob ::
              ([] ++ (procItems cfg level2 k rng rest (i + 1) t pool1).1),
             (procItems cfg level2 k rng rest (i + 1) t pool1).2.1,
             (procItems cfg level2 k rng rest (i + 1) t pool1).2.2) := by
          simp only [procItems]
          rw [← hpool1, if_neg hc]
        rw [hstep]
        rw [List.append_cons out (Submission.l1 s ob), ← List.append_assoc]
        exact h3

theorem pairwise_flatMapL {R : β → β → Prop} (f : α → List β) :
    ∀ l : List α, (∀ a ∈ l, (f a).Pairwise R) →
      l.Pairwise (fun a b => ∀ x ∈ f a, ∀ y ∈ f b, R x y) →
      (flatMapL f l).Pairwise R := by
  intro l
  induction l with
  | nil => intro _ _; exact List.Pairwise.nil
  | cons a l ih =>
      intro h1 h2
      rw [flatMapL]
      refine List.pairwise_append.2
        ⟨h1 a (List.mem_cons_self _ _),
         ih (fun b hb => h1 b (List.mem_cons_of_mem _ hb))
           (List.pairwise_cons.1 h2).2, ?_⟩
      intro x hx y hy
      obtain ⟨b, hb, hyb⟩ := (mem_flatMapL f y l).1 hy
      exact (List.pairwise_cons.1 h2).1 b hb x hx y hyb

theorem itemsOf_pairwise (cfg : List (MLStageFullName × List String))
    (hkeys : (cfg.map Prod.fst).Nodup) (hvals : ∀ p ∈ cfg, p.2.Nodup) :
    ((itemsOf cfg).filter (fun p => p.2.isSome)).Pairwise (· ≠ ·) := by
  have hkeys1 : ((cfg.filter (fun p => p.1.length == 1)).map Prod.fst).Nodup :=
    List.Nodup.sublist (List.Sublist.map Prod.fst (List.filter_sublist cfg)) hkeys
  have hpwR : (itemsOf cfg).Pairwise
      (fun x y : MLStageFullName × Option String =>
        x.2.isSome = true → x ≠ y) := by
    simp only [itemsOf]
    refine pairwise_flatMapL _ _ ?_ ?_
    · intro r _
      refine List.Pairwise.map _ ?_ (List.pairwise_map.1 hkeys1)
      intro a b hab _ hEq
      exact hab (congrArg (fun p => p.1) hEq)
    · refine (List.pairwise_lt_range _).imp ?_
      intro r r' hrr x hx y hy hsome hEq
      obtain ⟨p, hp, hxp⟩ := List.mem_map.1 hx
      obtain ⟨q, hq, hyq⟩ := List.mem_map.1 hy
      subst hxp
      subst hyq
      have h1 : p.1 = q.1 := congrArg (fun z => z.1) hEq
      have hpq : p = q := List.inj_on_of_nodup_map hkeys1 hp hq h1
      subst hpq
      have h2 : p.2.get? r = p.2.get? r' := congrArg (fun z => z.2) hEq
      have hsome' : (p.2.get? r).isSome = true := hsome
      obtain ⟨c, hc⟩ := Option.isSome_iff_exists.1 hsome'
      obtain ⟨hrlen, _⟩ := List.get?_eq_some.1 hc
      have hnd : p.2.Nodup := hvals p (List.mem_filter.1 hp).1
      have := List.get?_inj hrlen hnd h2
      omega
  have hf1 : ((itemsOf cfg).filter (fun p => p.2.isSome)).Pairwise
      (fun x y => x.2.isSome = true → x ≠ y) :=
    List.Pairwise.filter _ hpwR
  refine hf1.imp_of_mem ?_
  intro a b ha hb hR
  exact hR (List.mem_filter.1 ha).2

theorem genRun_sched_inv (cfg : List (MLStageFullName × List String))
    (rng : Nat → Nat)
    (hkeys : (cfg.map Prod.fst).Nodup) (hvals : ∀ p ∈ cfg, p.2.Nodup) :
    ∃ done' pool', SchedInv done' (genRun cfg rng) pool' := by
  have hl2 : ((cfg.filter (fun p => p.1.length == 2)).map Prod.fst).Nodup :=
    List.Nodup.sublist (List.Sublist.map Prod.fst (List.filter_sublist cfg)) hkeys
  have hlk : ∀ l2, (lookupCfg cfg l2).Nodup := lookupCfg_nodup cfg hvals
  have hinv0 : SchedInv [] [] [] :=
    ⟨List.Pairwise.nil, rfl,
     fun _ _ _ _ h => absurd h (List.not_mem_nil _),
     fun _ h => absurd h (List.not_mem_nil _), List.Pairwise.nil⟩
  obtain ⟨done1, h1⟩ := procItems_inv cfg
    ((cfg.filter (fun p => p.1.length == 2)).map Prod.fst)
    (cfg.filter (fun p => p.1.length == 1)).length rng hl2 hlk
    (itemsOf cfg) 0 0 [] [] [] hinv0
    (fun _ _ _ h => absurd h (List.not_mem_nil _))
    (itemsOf_pairwise cfg hkeys hvals)
  rw [List.nil_append] at h1
  obtain ⟨pool', h2⟩ := drainAllF_inv rng
    (poolMeasure (procItems cfg
        ((cfg.filter (fun p => p.1.length == 2)).map Prod.fst)
        (cfg.filter (fun p => p.1.length == 1)).length rng
        (itemsOf cfg) 0 0 []).2.1 + 1)
    (procItems cfg ((cfg.filter (fun p => p.1.length == 2)).map Prod.fst)
        (cfg.filter (fun p => p.1.length == 1)).length rng
        (itemsOf cfg) 0 0 []).2.2
    done1
    (procItems cfg ((cfg.filter (fun p => p.1.length == 2)).map Prod.fst)
        (cfg.filter (fun p => p.1.length == 1)).length rng
        (itemsOf cfg) 0 0 []).1
    (procItems cfg ((cfg.filter (fun p => p.1.length == 2)).map Prod.fst)
        (cfg.filter (fun p => p.1.length == 1)).length rng
        (itemsOf cfg) 0 0 []).2.1 h1
  refine ⟨done1, pool', ?_⟩
  show SchedInv done1 (genRun cfg rng) pool'
  simp only [genRun, drainAll]
  exact h2

theorem cacheAppend_distinct_step (cache : Cache) (stg : MLStageFullName)
    (rec : TrainedStageBaseLearner) (s : Submission)
    (H rest : List Submission)
    (hs : s.proper = true)
    (hid : s.ident = (stg, rec.stage_bl, rec.prev_stage_bl))
    (hpw : ((H ++ s :: rest).filter Submission.proper).Pairwise identNe)
    (hprov : ∀ p ∈ cache, ∀ r ∈ p.2, ∃ s' ∈ H, s'.proper = true ∧
        s'.ident = (p.1, r.stage_bl, r.prev_stage_bl))
    (hnd : ∀ p ∈ cache,
        (p.2.map (fun r => (r.stage_bl, r.prev_stage_bl))).Nodup) :
    (∀ p ∈ cacheAppend cache stg rec, ∀ r ∈ p.2, ∃ s' ∈ H ++ [s],
        s'.proper = true ∧ s'.ident = (p.1, r.stage_bl, r.prev_stage_bl)) ∧
    (∀ p ∈ cacheAppend cache stg rec,
        (p.2.map (fun r => (r.stage_bl, r.prev_stage_bl))).Nodup) := by
  have hcross : ∀ s0 ∈ H, s0.proper = true → s0.ident ≠ s.ident := by
    intro s0 h0 hp0
    rw [List.filter_append] at hpw
    exact (List.pairwise_append.1 hpw).2.2 s0
      (List.mem_filter.2 ⟨h0, hp0⟩) s
      (List.mem_filter.2 ⟨List.mem_cons_self _ _, hs⟩)
  have hfreshPair : ∀ l, cacheLookup cache stg = some l →
      (rec.stage_bl, rec.prev_stage_bl) ∉
        l.map (fun r => (r.stage_bl, r.prev_stage_bl)) := by
    intro l hl hmem
    obtain ⟨r0, hr0, hpr0⟩ := List.mem_map.1 hmem
    obtain ⟨s0, hs0, hps0, hids0⟩ :=
      hprov (stg, l) (cacheLookup_some_mem cache stg l hl) r0 hr0
    refine hcross s0 hs0 hps0 ?_
    rw [hids0, hid]
    have h1 : r0.stage_bl = rec.stage_bl := congrArg (fun z => z.1) hpr0
    have h2 : r0.prev_stage_bl = rec.prev_stage_bl := congrArg (fun z => z.2) hpr0
    rw [h1, h2]
  constructor
  · intro p hp r hr
    rcases mem_cacheAppend cache stg rec p hp with hold | ⟨l, hl, hpe⟩ | ⟨hl, hpe⟩
    · obtain ⟨s', hs', hps', hids'⟩ := hprov p hold r hr
      exact ⟨s', List.mem_append_left _ hs', hps', hids'⟩
    · subst hpe
      rcases List.mem_append.1 hr with hro | hrn
      · obtain ⟨s', hs', hps', hids'⟩ :=
          hprov (stg, l) (cacheLookup_some_mem cache stg l hl) r hro
        exact ⟨s', List.mem_append_left _ hs', hps', hids'⟩
      · rw [List.mem_singleton] at hrn
        subst hrn
        exact ⟨s, List.mem_append_right _ (List.mem_singleton.2 rfl), hs, hid⟩
    · subst hpe
      rw [List.mem_singleton] at hr
      subst hr
      exact ⟨s, List.mem_append_right _ (List.mem_singleton.2 rfl), hs, hid⟩
  · intro p hp
    rcases mem_cacheAppend cache stg rec p hp with hold | ⟨l, hl, hpe⟩ | ⟨hl, hpe⟩
    · exact hnd p hold
    · subst hpe
      show ((l ++ [rec]).map (fun r => (r.stage_bl, r.prev_stage_bl))).Nodup
      rw [List.map_append]
      refine List.nodup_append.2
        ⟨hnd (stg, l) (cacheLookup_some_mem cache stg l hl),
         List.nodup_singleton _, ?_⟩
      intro x hx hx1
      rw [List.map_singleton, List.mem_singleton] at hx1
      subst hx1
      exact hfreshPair l hl hx
    · subst hpe
      exact List.nodup_singleton _

theorem runFitAux_cache_distinct (modelOf : Nat → Nat) (predOf : Nat → List ℚ)
    (timer : Nat → Bool) :
    ∀ (subs : List Submission) (k : Nat) (cache : Cache)
      (H : List Submission),
      ((H ++ subs).filter Submission.proper).Pairwise identNe →
      (∀ p ∈ cache, ∀ r ∈ p.2, ∃ s ∈ H, s.proper = true ∧
        s.ident = (p.1, r.stage_bl, r.prev_stage_bl)) →
      (∀ p ∈ cache, (p.2.map (fun r => (r.stage_bl, r.prev_stage_bl))).Nodup) →
      ∀ c', (runFitAux modelOf predOf timer k cache subs).1 = some c' →
        ∀ p ∈ c', (p.2.map (fun r => (r.stage_bl, r.prev_stage_bl))).Nodup := by
  intro subs
  induction subs with
  | nil =>
      intro k cache H hpw hprov hnd c' hc'
      rw [runFitAux] at hc'
      injection hc' with h1
      subst h1
      exact hnd
  | cons s rest ih =>
      intro k cache H hpw hprov hnd c' hc'
      cases he : evalSubmission modelOf predOf k cache s with
      | none =>
          have hr : (runFitAux modelOf predOf timer k cache (s :: rest)).1 = none := by
            simp only [runFitAux, he]
          rw [hr] at hc'
          exact Option.noConfusion hc'
      | some cnew =>
          have hstep :
              ∃ stg rec, s.proper = true ∧
                s.ident = (stg, rec.stage_bl, rec.prev_stage_bl) ∧
                cnew = cacheAppend cache stg rec := by
            cases s with
            | l1 stg oc =>
                cases oc with
                | none => exact Option.noConfusion he
                | some c =>
                    refine ⟨stg, ⟨c, none, modelOf k, predOf k⟩, rfl, rfl, ?_⟩
                    have he2 : some (cacheAppend cache stg
                        ⟨c, none, modelOf k, predOf k⟩) = some cnew := he
                    injection he2 with h1
                    exact h1.symm
            | l2 ps opc stg c =>
                cases opc with
                | none => exact Option.noConfusion he
                | some pc =>
                    cases hf : ((cacheLookup cache ps).getD []).filter
                        (fun r => r.stage_bl == pc) with
                    | nil =>
                        rw [evalSubmission, hf] at he
                        exact Option.noConfusion he
                    | cons r0 rs =>
                        refine ⟨stg, ⟨c, some pc, modelOf k, predOf k⟩, rfl, rfl, ?_⟩
                        rw [evalSubmission, hf] at he
                        injection he with h1
                        exact h1.symm
          obtain ⟨stg, rec, hsp, hsid, hcn⟩ := hstep
          subst hcn
          have hboth := cacheAppend_distinct_step cache stg rec s H rest
            hsp hsid hpw hprov hnd
          by_cases ht : timer k = true
          · have hr : (runFitAux modelOf predOf timer k cache (s :: rest)).1 =
                some (cacheAppend cache stg rec) := by
              simp only [runFitAux, he, ht, if_true]
            rw [hr] at hc'
            injection hc' with h1
            subst h1
            exact hboth.2
          · have hr : (runFitAux modelOf predOf timer k cache (s :: rest)).1 =
                (runFitAux modelOf predOf timer (k + 1)
                  (cacheAppend cache stg rec) rest).1 := by
              simp only [runFitAux, he, ht, if_false]
              rw [if_neg Bool.false_ne_true]
            rw [hr] at hc'
            have hpw' : (((H ++ [s]) ++ rest).filter Submission.proper).Pairwise
                identNe := by
              rw [← List.append_cons]
              exact hpw
            exact ih (k + 1) (cacheAppend cache stg rec) (H ++ [s])
              hpw' hboth.1 hboth.2 c' hc'

/-- C5 counterexample: with two candidates `A`, `B` for each level-1 stage
and the single candidate `Y` for the `effect_treatment` stage, a successful
run (no timer stop, constant random draws 0) trains the pair
`(["outcome_control", "effect_treatment"], "Y")` twice — once per
prerequisite `outcome_control` candidate, because every level-1 candidate
registers a fresh full candidate iterator for its level-2 stages — so the
cache holds two records with the same candidate display name under one
stage full identity, contradicting the claimed per-(stage, candidate)
uniqueness. -/
theorem same_candidate_trained_twice_per_stage :
    ((runFit id (fun _ => []) (fun _ => false)
        (genRun cfgTwoCands (fun _ => 0))).1.map (fun cache =>
          (cacheLookup cache ["outcome_control", "effect_treatment"]).map
            (fun recs => recs.map (fun r => r.stage_bl)))) =
      some (some ["Y", "Y"]) ∧ ¬ (["Y", "Y"] : List String).Nodup :=
  ⟨rfl, by decide⟩

/-- C5 (amended): after a single `fit` run over a stage-candidates dict
with distinct stage identities and per-stage duplicate-free candidate
lists, every cache entry contains at most one record per
(candidate display name, prerequisite candidate display name) pair: no
(stage full identity, candidate, prerequisite candidate) triple is trained
more than once during one run.  (Per candidate display name alone the
claim fails: a level-2 candidate is re-trained once per prerequisite
candidate, see the counterexample.) -/
theorem fit_trains_each_candidate_once_per_prereq
    (cfg : List (MLStageFullName × List String)) (rng : Nat → Nat)
    (modelOf : Nat → Nat) (predOf : Nat → List ℚ) (timer : Nat → Bool)
    (hkeys : (cfg.map Prod.fst).Nodup) (hvals : ∀ p ∈ cfg, p.2.Nodup)
    (cache : Cache)
    (hrun : (runFit modelOf predOf timer (genRun cfg rng)).1 = some cache) :
    ∀ p ∈ cache, (p.2.map (fun r => (r.stage_bl, r.prev_stage_bl))).Nodup := by
  obtain ⟨done', pool', hinv⟩ := genRun_sched_inv cfg rng hkeys hvals
  refine runFitAux_cache_distinct modelOf predOf timer (genRun cfg rng) 0 [] []
    ?_ (fun _ h => absurd h (List.not_mem_nil _))
    (fun _ h => absurd h (List.not_mem_nil _)) cache hrun
  rw [List.nil_append]
  exact hinv.distinct

/-- Witness for the amended C5 theorem at the concrete two-candidate
configuration. -/
theorem fit_trains_each_candidate_once_per_prereq_witness :
    (cfgTwoCands.map Prod.fst).Nodup ∧ (∀ p ∈ cfgTwoCands, p.2.Nodup) ∧
    ∃ cache, (runFit id (fun _ => []) (fun _ => false)
        (genRun cfgTwoCands (fun _ => 0))).1 = some cache ∧
      ∀ p ∈ cache,
        (p.2.map (fun r => (r.stage_bl, r.prev_stage_bl))).Nodup :=
  ⟨by decide, by decide, _, rfl,
   fit_trains_each_candidate_once_per_prereq cfgTwoCands (fun _ => 0) id
     (fun _ => []) (fun _ => false) (by decide) (by decide) _ rfl⟩

end Uplift
